import Mathlib

set_option maxHeartbeats 1000000

/- Shallow embedding of the configDiff resolution pipeline:
   file-overlay merge (config_merger.py), $ref resolution (ref_resolver.py),
   merge-key composition (merge_key_processor.py), placeholder substitution
   (placeholder_substitutor.py) and the orchestration steps of
   config_processor.py.  Python dicts are modelled as insertion-ordered
   association structures; file loading and parsing (an external
   collaborator) is modelled by a namespace map from logical POSIX paths to
   parsed trees. -/

mutual

/-- The Configuration Tree: the universal in-memory value (scalar, sequence,
    or insertion-ordered mapping), mirroring the Python data model. -/
inductive Val where
  | str  : String → Val
  | int  : Int → Val
  | bool : Bool → Val
  | null : Val
  | list : ValList → Val
  | dict : ValDict → Val

/-- A sequence of Configuration Tree values. -/
inductive ValList where
  | nil  : ValList
  | cons : Val → ValList → ValList

/-- An insertion-ordered mapping from string keys to values. -/
inductive ValDict where
  | nil  : ValDict
  | cons : String → Val → ValDict → ValDict

end

/-- Convenience conversion for writing concrete mappings. -/
def toValDict : List (String × Val) → ValDict
  | [] => .nil
  | (k, v) :: rest => .cons k v (toValDict rest)

/-- Convenience conversion for writing concrete sequences. -/
def toValList : List Val → ValList
  | [] => .nil
  | v :: rest => .cons v (toValList rest)

/-- Python dict lookup `d[k]` / the test `k in d`. -/
def dlookup : ValDict → String → Option Val
  | .nil, _ => none
  | .cons k' v rest, k => if k' = k then some v else dlookup rest k

/-- Python dict assignment `d[k] = v`: update in place if the key exists
    (keeping its position), otherwise append at the end. -/
def dinsert : ValDict → String → Val → ValDict
  | .nil, k, v => .cons k v .nil
  | .cons k' v' rest, k, v =>
    if k' = k then .cons k' v rest else .cons k' v' (dinsert rest k v)

/-- Python dict `d.pop(k)`: remove the binding of `k`, keeping the order of
    the remaining keys. -/
def derase : ValDict → String → ValDict
  | .nil, _ => .nil
  | .cons k' v' rest, k => if k' = k then rest else .cons k' v' (derase rest k)

/-- The keys of a mapping, in insertion order. -/
def dkeys : ValDict → List String
  | .nil => []
  | .cons k _ rest => k :: dkeys rest

/-- Python dict lookup on a plain association list (used for the namespace
    map, whose values are never embedded in a Configuration Tree). -/
def alookup {α : Type} : List (String × α) → String → Option α
  | [], _ => none
  | (k', v) :: rest, k => if k' = k then some v else alookup rest k

/-- Python dict assignment on a plain association list. -/
def pyInsert {α : Type} : List (String × α) → String → α → List (String × α)
  | [], k, v => [(k, v)]
  | (k', v') :: rest, k, v =>
    if k' = k then (k', v) :: rest else (k', v') :: pyInsert rest k v

/-- Python dict `d.pop(k)` on a plain association list. -/
def eraseKey {α : Type} : List (String × α) → String → List (String × α)
  | [], _ => []
  | (k', v') :: rest, k => if k' = k then rest else (k', v') :: eraseKey rest k

/-- The keys of an association list, in insertion order. -/
def keysOf {α : Type} : List (String × α) → List String
  | [] => []
  | (k, _) :: rest => k :: keysOf rest

/- ------------------------------------------------------------------ -/
/- config_merger.py                                                    -/
/- ------------------------------------------------------------------ -/

/-- Record one scanned directory tree into the namespace map: insert every
    (logical relative path, absolute location) pair in scan order, later
    entries overwriting earlier ones (merge_env_configs, the two rglob
    loops). -/
def buildFileMap (start : List (String × String)) (files : List (String × String)) :
    List (String × String) :=
  files.foldl (fun acc pv => pyInsert acc pv.1 pv.2) start

/-- merge_env_configs: scan the global tree first, the environment tree
    second; map insertion is last-write-wins, so an environment file sharing
    a logical path with a global file overwrites it.  The two directory trees
    are abstracted as the lists of (relative POSIX path, absolute path) pairs
    their recursive scans produce. -/
def merge_env_configs (globalFiles envFiles : List (String × String)) :
    List (String × String) :=
  buildFileMap (buildFileMap [] globalFiles) envFiles

/- ------------------------------------------------------------------ -/
/- merge_key_processor.py                                              -/
/- ------------------------------------------------------------------ -/

/-- _deep_merge_dicts: for each key of `source` in order, if both sides hold
    mappings recurse, otherwise the source value overwrites the target value
    (in place if present, appended otherwise). -/
def deep_merge_dicts : ValDict → ValDict → ValDict
  | target, .nil => target
  | target, .cons k (Val.dict sd) rest =>
    match dlookup target k with
    | some (Val.dict td) =>
      deep_merge_dicts (dinsert target k (Val.dict (deep_merge_dicts td sd))) rest
    | _ => deep_merge_dicts (dinsert target k (Val.dict sd)) rest
  | target, .cons k sv rest => deep_merge_dicts (dinsert target k sv) rest

/-- The value that one step of _deep_merge_dicts stores at a source key:
    the recursive merge when both sides hold mappings, the source value
    otherwise. -/
def mergedVal (targetVal : Option Val) (sv : Val) : Val :=
  match targetVal, sv with
  | some (Val.dict td), Val.dict sd => Val.dict (deep_merge_dicts td sd)
  | _, _ => sv

inductive MergeErr where
  | fuelExhausted
  | mergeValueNotList
  | fragmentNotDict
  deriving Repr, DecidableEq

/-- The fold over the reversed merge-source list (merge_yaml_with_merge_keys,
    the loop over reversed merge_sources): each item must be a mapping and is
    deep-merged into the accumulated base. -/
def foldMergeSources : ValList → ValDict → Except MergeErr ValDict
  | .nil, base => .ok base
  | .cons item rest, base =>
    match item with
    | Val.dict sd => foldMergeSources rest (deep_merge_dicts base sd)
    | _ => .error .fragmentNotDict

/-- Reverse a sequence (Python reversed()). -/
def vlReverseAux : ValList → ValList → ValList
  | .nil, acc => acc
  | .cons v rest, acc => vlReverseAux rest (.cons v acc)

/-- Reverse a sequence. -/
def vlReverse (l : ValList) : ValList := vlReverseAux l .nil

mutual

/-- merge_yaml_with_merge_keys: composes every mapping carrying a merge key.
    Fragments are folded from last (lowest priority) to first (highest), then
    the mapping's remaining sibling keys are deep-merged on top; finally the
    walk recurses into the resulting values.  The recursion is bounded by
    fuel because it re-enters newly built mappings (in Python it is bounded
    by the tree's depth, which deep-merging never increases). -/
def merge_yaml_with_merge_keys : Nat → Val → Except MergeErr Val
  | 0, _ => .error .fuelExhausted
  | fuel+1, Val.dict d =>
    let step : Except MergeErr ValDict :=
      match dlookup d "<<:" with
      | some (Val.list sources) =>
        match foldMergeSources (vlReverse sources) .nil with
        | .error e => .error e
        | .ok base => .ok (deep_merge_dicts base (derase d "<<:"))
      | some _ => .error .mergeValueNotList
      | none => .ok d
    match step with
    | .error e => .error e
    | .ok entries =>
      match mergeKeyEntries fuel entries with
      | .error e => .error e
      | .ok es => .ok (Val.dict es)
  | fuel+1, Val.list l =>
    match mergeKeyItems fuel l with
    | .error e => .error e
    | .ok is => .ok (Val.list is)
  | _+1, v => .ok v

/-- The per-entry recursion of merge_yaml_with_merge_keys over a mapping's
    values. -/
def mergeKeyEntries : Nat → ValDict → Except MergeErr ValDict
  | 0, _ => .error .fuelExhausted
  | _+1, .nil => .ok .nil
  | fuel+1, .cons k v rest =>
    match merge_yaml_with_merge_keys fuel v with
    | .error e => .error e
    | .ok v' =>
      match mergeKeyEntries fuel rest with
      | .error e => .error e
      | .ok rest' => .ok (.cons k v' rest')

/-- The per-item recursion of merge_yaml_with_merge_keys over a sequence. -/
def mergeKeyItems : Nat → ValList → Except MergeErr ValList
  | 0, _ => .error .fuelExhausted
  | _+1, .nil => .ok .nil
  | fuel+1, .cons item rest =>
    match merge_yaml_with_merge_keys fuel item with
    | .error e => .error e
    | .ok item' =>
      match mergeKeyItems fuel rest with
      | .error e => .error e
      | .ok rest' => .ok (.cons item' rest')

end

/- ------------------------------------------------------------------ -/
/- placeholder_substitutor.py                                          -/
/- ------------------------------------------------------------------ -/

/-- The whitespace characters stripped by Python's str.strip(). -/
def isPySpace (c : Char) : Bool :=
  c = ' ' || c = '\t' || c = '\n' || c = '\r' || c = '\x0b' || c = '\x0c'

/-- Python str.strip(): drop whitespace from both ends. -/
def pyStrip (s : String) : String :=
  String.mk (((s.data.dropWhile isPySpace).reverse.dropWhile isPySpace).reverse)

/-- Split a character list on every occurrence of `sep` (Python
    str.split(sep) with a one-character separator: an empty input yields one
    empty field, adjacent separators yield empty fields). -/
def charSplitOn (sep : Char) : List Char → List (List Char)
  | [] => [[]]
  | c :: cs =>
    let rest := charSplitOn sep cs
    if c = sep then [] :: rest
    else
      match rest with
      | [] => [[c]]
      | field :: fields => (c :: field) :: fields

/-- Python s.split(sep) for a one-character separator. -/
def pySplitChar (s : String) (sep : Char) : List String :=
  (charSplitOn sep s.data).map String.mk

/-- Whether `pat` is an initial segment of `s`. -/
def listStartsWith : List Char → List Char → Bool
  | [], _ => true
  | _ :: _, [] => false
  | p :: ps, c :: cs => p = c && listStartsWith ps cs

/-- Left-to-right, non-overlapping replacement over a character list (Python
    str.replace semantics for a non-empty pattern). -/
def charsReplace : Nat → List Char → List Char → List Char → List Char
  | 0, s, _, _ => s
  | _+1, [], _, _ => []
  | fuel+1, c :: cs, pat, rep =>
    if listStartsWith pat (c :: cs) then
      rep ++ charsReplace fuel ((c :: cs).drop pat.length) pat rep
    else
      c :: charsReplace fuel cs pat rep

/-- Python s.replace(pat, rep) for a non-empty pattern (replaces every
    non-overlapping occurrence, scanning left to right). -/
def strReplace (s pat rep : String) : String :=
  String.mk (charsReplace (s.data.length + 1) s.data pat.data rep.data)

/-- Scanner for the regular-expression pattern of a placeholder token (two
    opening braces, one or more non-closing-brace characters, two closing
    braces): returns the inner texts of all non-overlapping matches, scanning
    left to right and advancing one character after a failed match attempt,
    exactly as re.finditer does. -/
def findTokensAux : Nat → List Char → List String
  | 0, _ => []
  | _+1, [] => []
  | fuel+1, c :: cs =>
    if c = '\x7b' then
      match cs with
      | c2 :: cs2 =>
        if c2 = '\x7b' then
          let inner := cs2.takeWhile (· ≠ '\x7d')
          let rest := cs2.dropWhile (· ≠ '\x7d')
          match inner, rest with
          | _ :: _, '\x7d' :: '\x7d' :: rest2 => String.mk inner :: findTokensAux fuel rest2
          | _, _ => findTokensAux fuel (c2 :: cs2)
        else findTokensAux fuel (c2 :: cs2)
      | [] => []
    else findTokensAux fuel cs

/-- All placeholder-token inner texts of a string, in order. -/
def findTokens (s : String) : List String :=
  findTokensAux (s.data.length + 1) s.data

/-- The first placeholder token of a string, including its braces
    (_find_first_placeholder at string level). -/
def firstTokenOfString (s : String) : Option String :=
  (findTokens s).head?.map (fun t => "\x7b\x7b" ++ t ++ "\x7d\x7d")

/-- Python str() of an integer. -/
def intToPyString (i : Int) : String := toString i

mutual

/-- Python str(value) on a Configuration Tree value: strings pass through,
    True/False/None use Python capitalisation, containers print like Python
    repr. -/
def pyStr : Val → String
  | .str s => s
  | .int i => intToPyString i
  | .bool b => if b then "True" else "False"
  | .null => "None"
  | .list l => "[" ++ pyReprItems l ++ "]"
  | .dict d => "\x7b" ++ pyReprEntries d ++ "\x7d"

/-- Python repr(value), used for elements inside containers. -/
def pyRepr : Val → String
  | .str s => "'" ++ s ++ "'"
  | .int i => intToPyString i
  | .bool b => if b then "True" else "False"
  | .null => "None"
  | .list l => "[" ++ pyReprItems l ++ "]"
  | .dict d => "\x7b" ++ pyReprEntries d ++ "\x7d"

/-- Comma-separated reprs of sequence elements. -/
def pyReprItems : ValList → String
  | .nil => ""
  | .cons v .nil => pyRepr v
  | .cons v rest => pyRepr v ++ ", " ++ pyReprItems rest

/-- Comma-separated key: value reprs of mapping entries. -/
def pyReprEntries : ValDict → String
  | .nil => ""
  | .cons k v .nil => "'" ++ k ++ "': " ++ pyRepr v
  | .cons k v rest => "'" ++ k ++ "': " ++ pyRepr v ++ ", " ++ pyReprEntries rest

end

/-- Placeholder-substitution failures (PlaceholderNotFoundError and
    CircularPlaceholderDependencyError). -/
inductive PlaceholderErr where
  | placeholderNotFound (path : String)
  | circular (exampleToken : String)
  deriving Repr, DecidableEq

/-- The walk of _get_value_by_path: follow the dot-separated segments; any
    missing segment, or a non-mapping node visited mid-path, yields the
    not-found sentinel (modelled as none). -/
def getValueByPathGo : List String → Val → Option Val
  | [], v => some v
  | key :: keys, Val.dict d =>
    match dlookup d key with
    | some v => getValueByPathGo keys v
    | none => none
  | _ :: _, _ => none

/-- _get_value_by_path on the records mapping. -/
def get_value_by_path (records : ValDict) (pathString : String) : Option Val :=
  getValueByPathGo (pySplitChar pathString '.') (Val.dict records)

/-- The token-by-token loop of _substitute_in_string: tokens come from the
    original string; each found value replaces every occurrence of the
    literal token text in the evolving string and sets the changed flag; a
    missing path raises PlaceholderNotFoundError naming the stripped path. -/
def substTokensGo (records : ValDict) :
    List String → Bool → String → Except PlaceholderErr (Bool × String)
  | [], changed, acc => .ok (changed, acc)
  | t :: ts, _, acc =>
    let key := pyStrip t
    match get_value_by_path records key with
    | some v =>
      substTokensGo records ts true (strReplace acc ("\x7b\x7b" ++ t ++ "\x7d\x7d") (pyStr v))
    | none => .error (.placeholderNotFound key)

/-- _substitute_in_string. -/
def substitute_in_string (s : String) (records : ValDict) :
    Except PlaceholderErr (Bool × String) :=
  substTokensGo records (findTokens s) false s

mutual

/-- _substitute_in_block_one_pass: one whole-tree pass, rebuilding the
    structure and recording whether any replacement happened.  (The Python
    function also threads a visited set that it never uses; it is omitted.) -/
def substOnePassVal : Val → ValDict → Except PlaceholderErr (Bool × Val)
  | Val.str s, records =>
    match substitute_in_string s records with
    | .error e => .error e
    | .ok (c, s') => .ok (c, Val.str s')
  | Val.dict d, records =>
    match substOnePassEntries d records with
    | .error e => .error e
    | .ok (c, d') => .ok (c, Val.dict d')
  | Val.list l, records =>
    match substOnePassItems l records with
    | .error e => .error e
    | .ok (c, l') => .ok (c, Val.list l')
  | v, _ => .ok (false, v)

/-- The mapping-entry recursion of _substitute_in_block_one_pass. -/
def substOnePassEntries : ValDict → ValDict → Except PlaceholderErr (Bool × ValDict)
  | .nil, _ => .ok (false, .nil)
  | .cons k v rest, records =>
    match substOnePassVal v records with
    | .error e => .error e
    | .ok (c, v') =>
      match substOnePassEntries rest records with
      | .error e => .error e
      | .ok (c', rest') => .ok (c || c', .cons k v' rest')

/-- The sequence-item recursion of _substitute_in_block_one_pass. -/
def substOnePassItems : ValList → ValDict → Except PlaceholderErr (Bool × ValList)
  | .nil, _ => .ok (false, .nil)
  | .cons item rest, records =>
    match substOnePassVal item records with
    | .error e => .error e
    | .ok (c, item') =>
      match substOnePassItems rest records with
      | .error e => .error e
      | .ok (c', rest') => .ok (c || c', .cons item' rest')

end

mutual

/-- _contains_placeholders. -/
def containsPlaceholdersVal : Val → Bool
  | Val.str s => decide (findTokens s ≠ [])
  | Val.dict d => containsPlaceholdersEntries d
  | Val.list l => containsPlaceholdersItems l
  | _ => false

/-- _contains_placeholders over mapping values. -/
def containsPlaceholdersEntries : ValDict → Bool
  | .nil => false
  | .cons _ v rest => containsPlaceholdersVal v || containsPlaceholdersEntries rest

/-- _contains_placeholders over sequence items. -/
def containsPlaceholdersItems : ValList → Bool
  | .nil => false
  | .cons item rest => containsPlaceholdersVal item || containsPlaceholdersItems rest

end

mutual

/-- _find_first_placeholder. -/
def findFirstPlaceholderVal : Val → Option String
  | Val.str s => firstTokenOfString s
  | Val.dict d => findFirstPlaceholderEntries d
  | Val.list l => findFirstPlaceholderItems l
  | _ => none

/-- _find_first_placeholder over mapping values. -/
def findFirstPlaceholderEntries : ValDict → Option String
  | .nil => none
  | .cons _ v rest =>
    match findFirstPlaceholderVal v with
    | some t => some t
    | none => findFirstPlaceholderEntries rest

/-- _find_first_placeholder over sequence items. -/
def findFirstPlaceholderItems : ValList → Option String
  | .nil => none
  | .cons item rest =>
    match findFirstPlaceholderVal item with
    | some t => some t
    | none => findFirstPlaceholderItems rest

end

/-- The iteration loop of substitute_placeholders: run up to `n` further
    passes, returning early when a pass makes no replacement; when the budget
    is exhausted while placeholders remain, raise the circular-dependency
    error carrying one offending token as example. -/
def substituteAux (records : ValDict) : Nat → Val → Except PlaceholderErr Val
  | 0, d =>
    if containsPlaceholdersVal d then
      .error (.circular ((findFirstPlaceholderVal d).getD ""))
    else .ok d
  | n+1, d =>
    match substOnePassVal d records with
    | .error e => .error e
    | .ok (changed, d') =>
      if changed then substituteAux records n d' else .ok d'

/-- substitute_placeholders (the Python default for max_iterations is 10). -/
def substitute_placeholders (dataToProcess : Val) (recordsContext : ValDict)
    (maxIterations : Nat) : Except PlaceholderErr Val :=
  substituteAux recordsContext maxIterations dataToProcess

/- ------------------------------------------------------------------ -/
/- config_processor.py, steps 5-7 (service extraction, records context, -/
/- placeholder substitution, output wrapping)                           -/
/- ------------------------------------------------------------------ -/

/-- Failures of the extraction/substitution stage of
    process_config_package. -/
inductive ProcErr where
  | servicesMissing
  | servicesNotAList
  | serviceNotFound (requested : String) (available : List Val)
  | placeholder (e : PlaceholderErr)

/-- The service-lookup loop of process_config_package: the first sequence
    element that is a mapping, has a "name" key, and whose name equals the
    requested string. -/
def findServiceEntry : ValList → String → Option ValDict
  | .nil, _ => none
  | .cons entry rest, name =>
    match entry with
    | Val.dict d =>
      match dlookup d "name" with
      | some (Val.str n) => if n = name then some d else findServiceEntry rest name
      | some _ => findServiceEntry rest name
      | none => findServiceEntry rest name
    | _ => findServiceEntry rest name

/-- The available-name listing used in the service-not-found error: the
    "name" value of every sequence element that is a mapping with a "name"
    key. -/
def availableServiceNames : ValList → List Val
  | .nil => []
  | .cons entry rest =>
    match entry with
    | Val.dict d =>
      match dlookup d "name" with
      | some n => n :: availableServiceNames rest
      | none => availableServiceNames rest
    | _ => availableServiceNames rest

/-- The records-context extraction of process_config_package: follow
    properties → configs → private → records, substituting an empty mapping
    whenever a segment is absent or not a mapping. -/
def extractRecordsContext (entry : ValDict) : ValDict :=
  let properties := (dlookup entry "properties").getD (Val.dict .nil)
  let configs :=
    match properties with
    | Val.dict p => (dlookup p "configs").getD (Val.dict .nil)
    | _ => Val.dict .nil
  let privateConfig :=
    match configs with
    | Val.dict c => (dlookup c "private").getD (Val.dict .nil)
    | _ => Val.dict .nil
  let records :=
    match privateConfig with
    | Val.dict pc => (dlookup pc "records").getD (Val.dict .nil)
    | _ => Val.dict .nil
  match records with
  | Val.dict r => r
  | _ => .nil

/-- The shared tail of process_config_package once a services sequence is in
    hand: locate the requested entry (error listing available names when
    absent), extract its records context, substitute placeholders over the
    service entry (max_iterations defaults to 10), and wrap the result under
    the service's name. -/
def processServicesList (l : ValList) (serviceName : String) : Except ProcErr ValDict :=
  match findServiceEntry l serviceName with
  | none => .error (.serviceNotFound serviceName (availableServiceNames l))
  | some entry =>
    match substitute_placeholders (Val.dict entry) (extractRecordsContext entry) 10 with
    | .error e => .error (.placeholder e)
    | .ok finalServiceConfig => .ok (.cons serviceName finalServiceConfig .nil)

/-- Steps 5-7 of process_config_package, applied to the document produced by
    reference resolution and merge-key composition: require a "services"
    entry, tolerate a single mapping by wrapping it into a one-element
    sequence, and delegate to the shared tail. -/
def process_config_package_resolved (dataAfterMergeKeys : Val) (serviceName : String) :
    Except ProcErr ValDict :=
  match dataAfterMergeKeys with
  | Val.dict d =>
    match dlookup d "services" with
    | none => .error .servicesMissing
    | some servicesVal =>
      match servicesVal with
      | Val.list l => processServicesList l serviceName
      | Val.dict sd => processServicesList (.cons (Val.dict sd) .nil) serviceName
      | _ => .error .servicesNotAList
  | _ => .error .servicesMissing

/-- Modelled from the spec (section 4.6): the claimed alternative in which
    placeholder substitution runs over the *entire resolved document* using
    the extracted service's records context, after which the service entry is
    looked up again in the substituted document and returned keyed by its
    name.  This definition exists only to compare the specified behaviour
    with process_config_package_resolved. -/
def processWholeDocSubstitution (dataAfterMergeKeys : Val) (serviceName : String) :
    Except ProcErr ValDict :=
  match dataAfterMergeKeys with
  | Val.dict d =>
    match dlookup d "services" with
    | none => .error .servicesMissing
    | some servicesVal =>
      let asList : Except ProcErr ValList :=
        match servicesVal with
        | Val.list l => .ok l
        | Val.dict sd => .ok (.cons (Val.dict sd) .nil)
        | _ => .error .servicesNotAList
      match asList with
      | .error e => .error e
      | .ok l =>
        match findServiceEntry l serviceName with
        | none => .error (.serviceNotFound serviceName (availableServiceNames l))
        | some entry =>
          match substitute_placeholders (Val.dict d) (extractRecordsContext entry) 10 with
          | .error e => .error (.placeholder e)
          | .ok substitutedDoc =>
            match substitutedDoc with
            | Val.dict d' =>
              match dlookup d' "services" with
              | some (Val.list l') =>
                match findServiceEntry l' serviceName with
                | some entry' => .ok (.cons serviceName (Val.dict entry') .nil)
                | none => .error (.serviceNotFound serviceName (availableServiceNames l'))
              | some (Val.dict sd') =>
                match findServiceEntry (.cons (Val.dict sd') .nil) serviceName with
                | some entry' => .ok (.cons serviceName (Val.dict entry') .nil)
                | none => .error (.serviceNotFound serviceName [])
              | _ => .error .servicesMissing
            | _ => .error .servicesMissing
  | _ => .error .servicesMissing

/- ------------------------------------------------------------------ -/
/- ref_resolver.py                                                     -/
/- ------------------------------------------------------------------ -/

/-- Reference-resolution failures (RefResolutionError variants). -/
inductive RefErr where
  | circular (refKey : String)
  | refNotString
  | targetNotFound (path : String)
  | pointerFailed (pointer : String) (file : String)
  | baseFileNotFound (path : String)
  | fuelExhausted
  deriving Repr, DecidableEq

/-- Python s.strip(chars) for the quote characters, as applied to the file
    and pointer parts of a $ref value. -/
def isQuoteChar (c : Char) : Bool := c = '"' || c = '\''

/-- Strip surrounding quote characters from both ends. -/
def pyStripQuotes (s : String) : String :=
  String.mk (((s.data.dropWhile isQuoteChar).reverse.dropWhile isQuoteChar).reverse)

/-- Split a $ref value on the first '#'; a value with no '#' means "whole
    file, no pointer". -/
def splitFirstHash (s : String) : String × String :=
  let before := s.data.takeWhile (· ≠ '#')
  let after := s.data.dropWhile (· ≠ '#')
  match after with
  | _ :: rest => (String.mk before, String.mk rest)
  | [] => (s, "")

/-- Join a list of path components with slashes. -/
def joinSlash : List String → String
  | [] => ""
  | [x] => x
  | x :: xs => x ++ "/" ++ joinSlash xs

/-- os.path.dirname on a relative POSIX path: everything before the last
    slash, or the empty string when there is none. -/
def posixDirname (s : String) : String :=
  let parts := pySplitChar s '/'
  joinSlash parts.dropLast

/-- os.path.join for the relative POSIX paths handled here (a second
    component starting with a slash replaces the first). -/
def posixJoin (d r : String) : String :=
  if d = "" then r
  else
    match r.data with
    | '/' :: _ => r
    | _ => d ++ "/" ++ r

/-- The component-processing loop of os.path.normpath: drop empty and "."
    components, let ".." cancel a preceding real component, and keep leading
    ".." components of a relative path.  The accumulator holds the processed
    components in reverse. -/
def normpathComps : List String → List String → List String
  | [], acc => acc.reverse
  | c :: rest, acc =>
    if c = "" || c = "." then normpathComps rest acc
    else if c = ".." then
      match acc with
      | [] => normpathComps rest [".."]
      | top :: below =>
        if top = ".." then normpathComps rest (c :: acc)
        else normpathComps rest below
    else normpathComps rest (c :: acc)

/-- os.path.normpath restricted to the relative POSIX paths handled by the
    resolver (no absolute paths arise: all namespace-map keys are relative). -/
def posixNormpath (p : String) : String :=
  let res := joinSlash (normpathComps (pySplitChar p '/') [])
  if res = "" then "." else res

/-- The referenced-file path computation of _resolve_ref: an empty file part
    refers to the current file; otherwise the file part is joined to the
    directory of the file currently being walked and normalised, a result of
    "." again meaning the current file. -/
def referencedFilePath (currentFilePath refFilePart : String) : String :=
  if refFilePart = "" then currentFilePath
  else
    let p := posixNormpath (posixJoin (posixDirname currentFilePath) refFilePart)
    if p = "." then currentFilePath else p

/-- Unescape one JSON-Pointer reference token (~1 before ~0, as the
    jsonpointer library does). -/
def jsonPointerUnescape (s : String) : String :=
  strReplace (strReplace s "~1" "/") "~0" "~"

/-- Whether a string is a non-empty run of decimal digits. -/
def allDigits (s : String) : Bool :=
  decide (s.data ≠ []) && s.data.all (fun c => c.isDigit)

/-- Decimal value of a digit string. -/
def digitsToNat (s : String) : Nat :=
  s.data.foldl (fun acc c => acc * 10 + (c.toNat - '0'.toNat)) 0

/-- Index into a sequence. -/
def vlGet : ValList → Nat → Option Val
  | .nil, _ => none
  | .cons v _, 0 => some v
  | .cons _ rest, n+1 => vlGet rest n

/-- The JSON-Pointer walk (jsonpointer.resolve_pointer): mappings are indexed
    by unescaped reference tokens, sequences by decimal indices; anything
    else fails. -/
def jsonPointerGo : List String → Val → Option Val
  | [], v => some v
  | part :: parts, Val.dict d =>
    match dlookup d (jsonPointerUnescape part) with
    | some v => jsonPointerGo parts v
    | none => none
  | part :: parts, Val.list l =>
    if allDigits part then
      match vlGet l (digitsToNat part) with
      | some v => jsonPointerGo parts v
      | none => none
    else none
  | _ :: _, _ => none

/-- jsonpointer.resolve_pointer: the pointer must be empty (whole document)
    or start with '/'; the leading empty token is dropped. -/
def resolveJsonPointer (v : Val) (ptr : String) : Option Val :=
  match ptr.data with
  | [] => some v
  | '/' :: _ => jsonPointerGo ((pySplitChar ptr '/').drop 1) v
  | _ => none

/-- _resolve_ref: split the $ref value on the first '#', strip quotes from
    both parts, resolve the referenced file's path relative to the directory
    of the file currently being walked, look it up in the namespace map
    (fatal when absent), load the target file (modelled by the map holding
    parsed trees), and apply the JSON pointer when present.  Returns the
    resolved content together with the referenced file's relative path. -/
def resolve_ref (m : List (String × Val)) (refValue : String) (currentFilePath : String) :
    Except RefErr (Val × String) :=
  let fp := splitFirstHash refValue
  let refFilePart := pyStripQuotes fp.1
  let pointerPart := pyStripQuotes fp.2
  let referencedPath := referencedFilePath currentFilePath refFilePart
  match alookup m referencedPath with
  | none => .error (.targetNotFound referencedPath)
  | some refData =>
    if pointerPart = "" then .ok (refData, referencedPath)
    else
      match resolveJsonPointer refData pointerPart with
      | some rv => .ok (rv, referencedPath)
      | none => .error (.pointerFailed pointerPart referencedPath)

mutual

/-- _resolve_refs_recursive: a mapping containing a $ref key is replaced by
    the fully resolved target value (all sibling keys discarded); the
    cycle-tracking set of "currentPath->refValue" keys is threaded through
    the whole walk and, as in the source (where the removal of the marker is
    commented out), never shrinks.  Fueled: the recursion enters freshly
    fetched content, so it is not structural. -/
def resolve_refs_recursive : Nat → List (String × Val) → List String → Val → String →
    Except RefErr (Val × List String)
  | 0, _, _, _, _ => .error .fuelExhausted
  | fuel+1, m, visited, Val.dict d, ctx =>
    match dlookup d "$ref" with
    | some refVal =>
      match refVal with
      | Val.str rv =>
        let refKey := ctx ++ "->" ++ rv
        if refKey ∈ visited then .error (.circular refKey)
        else
          match resolve_ref m rv ctx with
          | .error e => .error e
          | .ok (content, refPath) =>
            resolve_refs_recursive fuel m (refKey :: visited) content refPath
      | _ => .error .refNotString
    | none =>
      match resolveRefsEntries fuel m visited d ctx with
      | .error e => .error e
      | .ok (es, vis) => .ok (Val.dict es, vis)
  | fuel+1, m, visited, Val.list l, ctx =>
    match resolveRefsItems fuel m visited l ctx with
    | .error e => .error e
    | .ok (is, vis) => .ok (Val.list is, vis)
  | _+1, _, visited, v, _ => .ok (v, visited)

/-- The mapping-entry walk of _resolve_refs_recursive, threading the shared
    visited set from one sibling to the next. -/
def resolveRefsEntries : Nat → List (String × Val) → List String → ValDict → String →
    Except RefErr (ValDict × List String)
  | 0, _, _, _, _ => .error .fuelExhausted
  | _+1, _, visited, .nil, _ => .ok (.nil, visited)
  | fuel+1, m, visited, .cons k v rest, ctx =>
    match resolve_refs_recursive fuel m visited v ctx with
    | .error e => .error e
    | .ok (v', vis1) =>
      match resolveRefsEntries fuel m vis1 rest ctx with
      | .error e => .error e
      | .ok (rest', vis2) => .ok (.cons k v' rest', vis2)

/-- The sequence-item walk of _resolve_refs_recursive, threading the shared
    visited set from one item to the next. -/
def resolveRefsItems : Nat → List (String × Val) → List String → ValList → String →
    Except RefErr (ValList × List String)
  | 0, _, _, _, _ => .error .fuelExhausted
  | _+1, _, visited, .nil, _ => .ok (.nil, visited)
  | fuel+1, m, visited, .cons item rest, ctx =>
    match resolve_refs_recursive fuel m visited item ctx with
    | .error e => .error e
    | .ok (item', vis1) =>
      match resolveRefsItems fuel m vis1 rest ctx with
      | .error e => .error e
      | .ok (rest', vis2) => .ok (.cons item' rest', vis2)

end

/-- resolve_refs: load the base file (modelled by the namespace-map lookup)
    and resolve recursively, starting from a fresh visited set scoped to this
    call. -/
def resolve_refs (fuel : Nat) (baseFileRelativePath : String) (m : List (String × Val)) :
    Except RefErr Val :=
  match alookup m baseFileRelativePath with
  | none => .error (.baseFileNotFound baseFileRelativePath)
  | some baseData =>
    match resolve_refs_recursive fuel m [] baseData baseFileRelativePath with
    | .error e => .error e
    | .ok (v, _) => .ok v

/- ------------------------------------------------------------------ -/
/- merge_key_processor.py, heap-level view (object identity, mutation) -/
/- ------------------------------------------------------------------ -/

/-- Python scalar values (immutable, carried directly). -/
inductive PyScalar where
  | str  : String → PyScalar
  | int  : Int → PyScalar
  | bool : Bool → PyScalar
  | null : PyScalar
  deriving Repr, DecidableEq

/-- A Python value: an immutable scalar or a reference to a mutable
    container object in the heap. -/
inductive PyVal where
  | scalar : PyScalar → PyVal
  | ref    : Nat → PyVal
  deriving Repr, DecidableEq

/-- A mutable container object: a dict (insertion-ordered) or a list. -/
inductive Obj where
  | dict : List (String × PyVal) → Obj
  | list : List PyVal → Obj
  deriving Repr, DecidableEq

/-- The heap: a store from addresses to container objects, together with the
    next fresh address. -/
structure Heap where
  mem  : List (Nat × Obj)
  next : Nat
  deriving Repr, DecidableEq

/-- Address lookup in the store. -/
def memLookup : List (Nat × Obj) → Nat → Option Obj
  | [], _ => none
  | (a', o) :: rest, a => if a' = a then some o else memLookup rest a

/-- In-place update of an existing address binding (mutation never creates a
    binding). -/
def memSet : List (Nat × Obj) → Nat → Obj → List (Nat × Obj)
  | [], _, _ => []
  | (a', o') :: rest, a, o =>
    if a' = a then (a', o) :: rest else (a', o') :: memSet rest a o

/-- Object stored at an address. -/
def heapLookup (h : Heap) (a : Nat) : Option Obj := memLookup h.mem a

/-- Mutate the object stored at an address. -/
def heapSet (h : Heap) (a : Nat) (o : Obj) : Heap := ⟨memSet h.mem a o, h.next⟩

/-- Allocate a new object at a fresh address. -/
def heapAlloc (h : Heap) (o : Obj) : Nat × Heap :=
  (h.next, ⟨(h.next, o) :: h.mem, h.next + 1⟩)

/-- Every allocated address is below the allocation counter. -/
def heapWF (h : Heap) : Prop := ∀ p ∈ h.mem, p.1 < h.next

instance (h : Heap) : Decidable (heapWF h) := by
  unfold heapWF; infer_instance

/-- The addresses stored directly inside an object. -/
def objAddrs : Obj → List Nat
  | Obj.dict es => es.filterMap (fun kv => match kv.2 with | PyVal.ref a => some a | _ => none)
  | Obj.list is => is.filterMap (fun v => match v with | PyVal.ref a => some a | _ => none)

/-- The heap region at and above `n₀` is closed: objects living there point
    only at or above `n₀`. -/
def regionClosed (h : Heap) (n₀ : Nat) : Prop :=
  ∀ a o, n₀ ≤ a → heapLookup h a = some o → ∀ b ∈ objAddrs o, n₀ ≤ b

mutual

/-- Read the abstract Configuration Tree denoted by a Python value, together
    with the preorder list of container addresses traversed.  Fueled: a heap
    may in general contain reference cycles. -/
def readTree : Nat → Heap → PyVal → Option (Val × List Nat)
  | _, _, PyVal.scalar (PyScalar.str s) => some (Val.str s, [])
  | _, _, PyVal.scalar (PyScalar.int i) => some (Val.int i, [])
  | _, _, PyVal.scalar (PyScalar.bool b) => some (Val.bool b, [])
  | _, _, PyVal.scalar PyScalar.null => some (Val.null, [])
  | 0, _, PyVal.ref _ => none
  | fuel+1, h, PyVal.ref a =>
    match heapLookup h a with
    | some (Obj.dict es) =>
      match readTreeEntries fuel h es with
      | some (ds, A) => some (Val.dict ds, a :: A)
      | none => none
    | some (Obj.list is) =>
      match readTreeItems fuel h is with
      | some (ls, A) => some (Val.list ls, a :: A)
      | none => none
    | none => none

/-- Read the entries of a dict object. -/
def readTreeEntries : Nat → Heap → List (String × PyVal) → Option (ValDict × List Nat)
  | _, _, [] => some (.nil, [])
  | 0, _, _ :: _ => none
  | fuel+1, h, (k, v) :: rest =>
    match readTree fuel h v with
    | some (t, A) =>
      match readTreeEntries fuel h rest with
      | some (ds, A') => some (.cons k t ds, A ++ A')
      | none => none
    | none => none

/-- Read the items of a list object. -/
def readTreeItems : Nat → Heap → List PyVal → Option (ValList × List Nat)
  | _, _, [] => some (.nil, [])
  | 0, _, _ :: _ => none
  | fuel+1, h, v :: rest =>
    match readTree fuel h v with
    | some (t, A) =>
      match readTreeItems fuel h rest with
      | some (ls, A') => some (.cons t ls, A ++ A')
      | none => none
    | none => none

end

mutual

/-- copy.deepcopy on a Python value: scalars pass through, containers are
    copied bottom-up into freshly allocated objects. -/
def deepcopyH : Nat → Heap → PyVal → Option (PyVal × Heap)
  | _, h, PyVal.scalar s => some (PyVal.scalar s, h)
  | 0, _, PyVal.ref _ => none
  | fuel+1, h, PyVal.ref a =>
    match heapLookup h a with
    | some (Obj.dict es) =>
      match deepcopyEntriesH fuel h es with
      | some (es', h1) =>
        let p := heapAlloc h1 (Obj.dict es')
        some (PyVal.ref p.1, p.2)
      | none => none
    | some (Obj.list is) =>
      match deepcopyItemsH fuel h is with
      | some (is', h1) =>
        let p := heapAlloc h1 (Obj.list is')
        some (PyVal.ref p.1, p.2)
      | none => none
    | none => none

/-- deepcopy of dict entries, left to right. -/
def deepcopyEntriesH : Nat → Heap → List (String × PyVal) → Option (List (String × PyVal) × Heap)
  | _, h, [] => some ([], h)
  | 0, _, _ :: _ => none
  | fuel+1, h, (k, v) :: rest =>
    match deepcopyH fuel h v with
    | some (v', h1) =>
      match deepcopyEntriesH fuel h1 rest with
      | some (rest', h2) => some ((k, v') :: rest', h2)
      | none => none
    | none => none

/-- deepcopy of list items, left to right. -/
def deepcopyItemsH : Nat → Heap → List PyVal → Option (List PyVal × Heap)
  | _, h, [] => some ([], h)
  | 0, _, _ :: _ => none
  | fuel+1, h, v :: rest =>
    match deepcopyH fuel h v with
    | some (v', h1) =>
      match deepcopyItemsH fuel h1 rest with
      | some (rest', h2) => some (v' :: rest', h2)
      | none => none
    | none => none

end

/-- The assignment branch of _deep_merge_dicts:
    target[key] = copy.deepcopy(value). -/
def deepMergeAssignH (fuel : Nat) (h : Heap) (t : Nat) (k : String) (sv : PyVal) :
    Option Heap :=
  match deepcopyH fuel h sv with
  | some (sv', h1) =>
    match heapLookup h1 t with
    | some (Obj.dict tes) => some (heapSet h1 t (Obj.dict (pyInsert tes k sv')))
    | _ => none
  | none => none

mutual

/-- _deep_merge_dicts at heap level: the source object must be a dict; its
    entries are merged into the target object in place. -/
def deepMergeH : Nat → Heap → Nat → Nat → Option Heap
  | 0, _, _, _ => none
  | fuel+1, h, t, s =>
    match heapLookup h s with
    | some (Obj.dict ses) => deepMergeEntriesH fuel h t ses
    | _ => none

/-- The per-source-entry loop of _deep_merge_dicts: when both the target's
    value at the key and the source value are dict objects recurse in place,
    otherwise assign a deep copy of the source value. -/
def deepMergeEntriesH : Nat → Heap → Nat → List (String × PyVal) → Option Heap
  | _, h, _, [] => some h
  | 0, _, _, _ :: _ => none
  | fuel+1, h, t, (k, sv) :: rest =>
    match heapLookup h t with
    | some (Obj.dict tes) =>
      match alookup tes k, sv with
      | some (PyVal.ref ta), PyVal.ref sa =>
        match heapLookup h ta, heapLookup h sa with
        | some (Obj.dict _), some (Obj.dict _) =>
          match deepMergeH fuel h ta sa with
          | some h1 => deepMergeEntriesH fuel h1 t rest
          | none => none
        | _, _ =>
          match deepMergeAssignH fuel h t k sv with
          | some h1 => deepMergeEntriesH fuel h1 t rest
          | none => none
      | _, _ =>
        match deepMergeAssignH fuel h t k sv with
        | some h1 => deepMergeEntriesH fuel h1 t rest
        | none => none
    | _ => none

end

mutual

/-- merge_yaml_with_merge_keys at heap level.  A dict argument is first
    deep-copied (data_copy = deepcopy(data)); when the copy carries a merge
    key, that key is popped in place, the fragments (reversed, each required
    to be a dict object) are deep-merged into a freshly allocated base, the
    copy's remaining keys are deep-merged on top, and the resulting entries
    are processed; otherwise the copy's entries are processed directly.  A
    list argument is rebuilt from left to right; scalars are returned as is.
    (The entry list of the dict being iterated is read once, which matches
    the Python loop because the recursive calls never mutate it.) -/
def mergeYamlH : Nat → Heap → PyVal → Option (PyVal × Heap)
  | 0, _, _ => none
  | fuel+1, h, PyVal.ref a =>
    match heapLookup h a with
    | some (Obj.dict _) =>
      match deepcopyH fuel h (PyVal.ref a) with
      | some (PyVal.ref a1, h1) =>
        match heapLookup h1 a1 with
        | some (Obj.dict es1) =>
          match alookup es1 "<<:" with
          | some ms =>
            let h2 := heapSet h1 a1 (Obj.dict (eraseKey es1 "<<:"))
            match ms with
            | PyVal.ref ls =>
              match heapLookup h2 ls with
              | some (Obj.list items) =>
                let p := heapAlloc h2 (Obj.dict [])
                match mergeFoldItemsH fuel p.2 p.1 items.reverse with
                | some h3 =>
                  match deepMergeH fuel h3 p.1 a1 with
                  | some h4 =>
                    match heapLookup h4 p.1 with
                    | some (Obj.dict mes) => mergeLoopH fuel h4 mes
                    | _ => none
                  | none => none
                | none => none
              | _ => none
            | _ => none
          | none => mergeLoopH fuel h1 es1
        | _ => none
      | _ => none
    | some (Obj.list items) =>
      match mergeItemsH fuel h items with
      | some (items', h1) =>
        let p := heapAlloc h1 (Obj.list items')
        some (PyVal.ref p.1, p.2)
      | none => none
    | none => none
  | _+1, h, v => some (v, h)

/-- The fold of the reversed merge-source fragments into the fresh base
    object; every fragment must be a dict object. -/
def mergeFoldItemsH : Nat → Heap → Nat → List PyVal → Option Heap
  | _, h, _, [] => some h
  | 0, _, _, _ :: _ => none
  | fuel+1, h, base, item :: rest =>
    match item with
    | PyVal.ref ia =>
      match heapLookup h ia with
      | some (Obj.dict _) =>
        match deepMergeH fuel h base ia with
        | some h1 => mergeFoldItemsH fuel h1 base rest
        | none => none
      | _ => none
    | _ => none

/-- The final loop of merge_yaml_with_merge_keys over a dict: allocate the
    fresh processed dict and fill it entry by entry. -/
def mergeLoopH : Nat → Heap → List (String × PyVal) → Option (PyVal × Heap)
  | 0, _, _ => none
  | fuel+1, h, entries =>
    let p := heapAlloc h (Obj.dict [])
    match mergeLoopGoH fuel p.2 p.1 entries with
    | some h1 => some (PyVal.ref p.1, h1)
    | none => none

/-- processed_dict[key] = merge_yaml_with_merge_keys(value, ...) for each
    entry in order. -/
def mergeLoopGoH : Nat → Heap → Nat → List (String × PyVal) → Option Heap
  | _, h, _, [] => some h
  | 0, _, _, _ :: _ => none
  | fuel+1, h, pd, (k, v) :: rest =>
    match mergeYamlH fuel h v with
    | some (v', h1) =>
      match heapLookup h1 pd with
      | some (Obj.dict pes) => mergeLoopGoH fuel (heapSet h1 pd (Obj.dict (pyInsert pes k v'))) pd rest
      | _ => none
    | none => none

/-- The list-comprehension branch of merge_yaml_with_merge_keys: process the
    original items left to right, then allocate the new list. -/
def mergeItemsH : Nat → Heap → List PyVal → Option (List PyVal × Heap)
  | _, h, [] => some ([], h)
  | 0, _, _ :: _ => none
  | fuel+1, h, item :: rest =>
    match mergeYamlH fuel h item with
    | some (item', h1) =>
      match mergeItemsH fuel h1 rest with
      | some (rest', h2) => some (item' :: rest', h2)
      | none => none
    | none => none

end

/- ------------------------------------------------------------------ -/
/- Auxiliary definitions used by the statements below                  -/
/- ------------------------------------------------------------------ -/

/-- The stripped path of the first token of a list whose lookup in the
    records context fails (the token at which _substitute_in_string raises). -/
def firstFailingPath (records : ValDict) : List String → Option String
  | [] => none
  | t :: ts =>
    match get_value_by_path records (pyStrip t) with
    | some _ => firstFailingPath records ts
    | none => some (pyStrip t)

/-- Membership in a sequence. -/
def vlMem (v : Val) : ValList → Prop
  | .nil => False
  | .cons w rest => v = w ∨ vlMem v rest

/- Concrete instances used in the theorems below. -/

/-- Namespace map of a document reaching the same reference twice via two
    independent, non-cyclic paths. -/
def mapIndependentRefs : List (String × Val) :=
  [("a.yaml", Val.dict (toValDict
      [("p", Val.dict (toValDict [("$ref", Val.str "b.yaml#")])),
       ("q", Val.dict (toValDict [("$ref", Val.str "b.yaml#")]))])),
   ("b.yaml", Val.dict (toValDict [("v", Val.int 1)]))]

/-- Namespace map of a direct reference cycle a.yaml#/x → b.yaml#/y →
    a.yaml#/x. -/
def mapTrueCycle : List (String × Val) :=
  [("a.yaml", Val.dict (toValDict [("x", Val.dict (toValDict [("$ref", Val.str "b.yaml#/y")]))])),
   ("b.yaml", Val.dict (toValDict [("y", Val.dict (toValDict [("$ref", Val.str "a.yaml#/x")]))]))]

/-- Namespace map of the multi-hop example: a.yaml references b/c.yaml,
    which references ./d.yaml; b/d.yaml and a decoy top-level d.yaml are both
    present. -/
def mapMultiHop : List (String × Val) :=
  [("a.yaml", Val.dict (toValDict [("k", Val.dict (toValDict [("$ref", Val.str "b/c.yaml#")]))])),
   ("b/c.yaml", Val.dict (toValDict [("$ref", Val.str "./d.yaml#")])),
   ("b/d.yaml", Val.str "right"),
   ("d.yaml", Val.str "wrong")]

/-- Namespace map of a mapping carrying a $ref key next to a sibling key. -/
def mapRefSiblings : List (String × Val) :=
  [("s.yaml", Val.dict (toValDict [("$ref", Val.str "t.yaml#"), ("keep", Val.int 5)])),
   ("t.yaml", Val.str "target-value")]

/-- The mutually self-referential context pair a → "(token b)",
    b → "(token a)". -/
def ctxMutual : ValDict :=
  toValDict [("a", Val.str "\x7b\x7bb\x7d\x7d"), ("b", Val.str "\x7b\x7ba\x7d\x7d")]

/-- The round-trip context with db.host = "h" and db.port = "5432". -/
def ctxDb : ValDict :=
  toValDict [("db", Val.dict (toValDict [("host", Val.str "h"), ("port", Val.str "5432")]))]

/-- A context whose key a holds a scalar, so the path a.b visits a
    non-mapping node. -/
def ctxScalarA : ValDict := toValDict [("a", Val.str "x")]

/-- The merge-key example node: fragments [(x 1, y 2), (x 9, z 3)] with
    sibling y 5. -/
def mergeKeyExampleNode : Val :=
  Val.dict (toValDict
    [("<<:", Val.list (toValList
        [Val.dict (toValDict [("x", Val.int 1), ("y", Val.int 2)]),
         Val.dict (toValDict [("x", Val.int 9), ("z", Val.int 3)])])),
     ("y", Val.int 5)])

/-- The composed result of the merge-key example. -/
def mergeKeyExampleResult : ValDict :=
  toValDict [("x", Val.int 1), ("z", Val.int 3), ("y", Val.int 5)]

/-- A resolved document with services X and Y. -/
def servicesDoc : Val :=
  Val.dict (toValDict
    [("services", Val.list (toValList
        [Val.dict (toValDict [("name", Val.str "X"), ("cfg", Val.int 1)]),
         Val.dict (toValDict [("name", Val.str "Y"), ("cfg", Val.int 2)])]))])

/-- The service entry of Y in servicesDoc. -/
def serviceEntryY : ValDict := toValDict [("name", Val.str "Y"), ("cfg", Val.int 2)]

/-- A resolved document whose only placeholder sits outside the service
    entry S. -/
def docOutsidePlaceholder : Val :=
  Val.dict (toValDict
    [("services", Val.list (toValList [Val.dict (toValDict [("name", Val.str "S")])])),
     ("other", Val.str "\x7b\x7bnope\x7d\x7d")])

/-- A one-object heap holding the dict (a ↦ 1) at address 0. -/
def c10Heap0 : Heap := ⟨[(0, Obj.dict [("a", PyVal.scalar (PyScalar.int 1))])], 1⟩

/-- The heap after running the composer on the reference 0 in c10Heap0:
    address 1 holds the deep copy, address 2 the processed result, and the
    original object at address 0 is untouched. -/
def c10Heap1 : Heap :=
  ⟨[(2, Obj.dict [("a", PyVal.scalar (PyScalar.int 1))]),
    (1, Obj.dict [("a", PyVal.scalar (PyScalar.int 1))]),
    (0, Obj.dict [("a", PyVal.scalar (PyScalar.int 1))])], 3⟩


/- Heap-evolution predicates used to state the mutation claims. -/

/-- A heap step confined to the region at or above n₀: the allocation
    counter is monotone, cells below n₀ are untouched, and every already
    allocated cell at or above n₀ is either untouched or now holds a dict
    object (the only objects the composer mutates in place). -/
def DeepMergeEvo (n0 : Nat) (h h' : Heap) : Prop :=
  h.next ≤ h'.next ∧ heapWF h' ∧ regionClosed h' n0
  ∧ (∀ a, a < n0 → heapLookup h' a = heapLookup h a)
  ∧ (∀ a, n0 ≤ a → a < h.next → (heapLookup h' a = heapLookup h a ∨
        ∃ es, heapLookup h' a = some (Obj.dict es)))

/-- The value reads back as a tree whose container addresses are fresh
    (at or above lo), pairwise distinct, and allocated. -/
def freshReadable (lo : Nat) (h' : Heap) (v : PyVal) : Prop :=
  ∃ g t A, readTree g h' v = some (t, A) ∧ A.Nodup ∧ ∀ a ∈ A, lo ≤ a ∧ a < h'.next

/-- freshReadable for the entries of a dict object. -/
def freshReadableEntries (lo : Nat) (h' : Heap) (es : List (String × PyVal)) : Prop :=
  ∃ g ds A, readTreeEntries g h' es = some (ds, A) ∧ A.Nodup ∧ ∀ a ∈ A, lo ≤ a ∧ a < h'.next

/-- freshReadable for the items of a list object. -/
def freshReadableItems (lo : Nat) (h' : Heap) (is : List PyVal) : Prop :=
  ∃ g ls A, readTreeItems g h' is = some (ls, A) ∧ A.Nodup ∧ ∀ a ∈ A, lo ≤ a ∧ a < h'.next

/- ------------------------------------------------------------------ -/
/- Theorems                                                            -/
/- ------------------------------------------------------------------ -/

/- Association-structure lemmas (recursive proofs, since the tree types are
   mutually inductive). -/

theorem dlookup_dinsert_self : ∀ (d : ValDict) (k : String) (v : Val),
    dlookup (dinsert d k v) k = some v
  | .nil, k, v => by simp [dinsert, dlookup]
  | .cons k' v' rest, k, v => by
    by_cases hk : k' = k
    · simp [dinsert, hk, dlookup]
    · simp [dinsert, hk, dlookup, dlookup_dinsert_self rest k v]

theorem dlookup_dinsert_other : ∀ (d : ValDict) (k k' : String) (v : Val), k ≠ k' →
    dlookup (dinsert d k v) k' = dlookup d k'
  | .nil, k, k', v, h => by simp [dinsert, dlookup, h]
  | .cons k0 v0 rest, k, k', v, h => by
    by_cases hk : k0 = k
    · subst hk
      simp [dinsert, dlookup, h]
    · simp [dinsert, hk, dlookup, dlookup_dinsert_other rest k k' v h]

theorem dlookup_eq_none_of_not_mem : ∀ (d : ValDict) (k : String), k ∉ dkeys d →
    dlookup d k = none
  | .nil, _, _ => rfl
  | .cons k' v rest, k, h => by
    simp only [dkeys, List.mem_cons, not_or] at h
    have hne : ¬ k' = k := fun hh => h.1 hh.symm
    simp [dlookup, hne, dlookup_eq_none_of_not_mem rest k h.2]

theorem alookup_pyInsert_self {α : Type} : ∀ (m : List (String × α)) (k : String) (v : α),
    alookup (pyInsert m k v) k = some v
  | [], k, v => by simp [pyInsert, alookup]
  | (k0, v0) :: rest, k, v => by
    by_cases hk : k0 = k
    · simp [pyInsert, hk, alookup]
    · simp [pyInsert, hk, alookup, alookup_pyInsert_self rest k v]

theorem alookup_pyInsert_other {α : Type} :
    ∀ (m : List (String × α)) (k k' : String) (v : α), k ≠ k' →
    alookup (pyInsert m k v) k' = alookup m k'
  | [], k, k', v, h => by simp [pyInsert, alookup, h]
  | (k0, v0) :: rest, k, k', v, h => by
    by_cases hk : k0 = k
    · subst hk
      simp [pyInsert, alookup, h]
    · simp [pyInsert, hk, alookup, alookup_pyInsert_other rest k k' v h]

theorem keysOf_pyInsert {α : Type} : ∀ (m : List (String × α)) (k : String) (v : α),
    keysOf (pyInsert m k v) = if k ∈ keysOf m then keysOf m else keysOf m ++ [k]
  | [], k, v => by simp [pyInsert, keysOf]
  | (k0, v0) :: rest, k, v => by
    by_cases hk : k0 = k
    · subst hk
      simp [pyInsert, keysOf]
    · have hne : ¬ k = k0 := fun hh => hk hh.symm
      rw [show pyInsert ((k0, v0) :: rest) k v = (k0, v0) :: pyInsert rest k v by
        simp [pyInsert, hk]]
      rw [show keysOf ((k0, v0) :: pyInsert rest k v) = k0 :: keysOf (pyInsert rest k v)
        from rfl]
      rw [keysOf_pyInsert rest k v]
      by_cases hmem : k ∈ keysOf rest
      · simp [keysOf, hmem, hne]
      · simp [keysOf, hmem, hne]

theorem keysOf_pyInsert_nodup {α : Type} (m : List (String × α)) (k : String) (v : α)
    (h : (keysOf m).Nodup) : (keysOf (pyInsert m k v)).Nodup := by
  rw [keysOf_pyInsert]
  by_cases hmem : k ∈ keysOf m
  · simp [hmem, h]
  · simp only [hmem, if_false]
    rw [← List.concat_eq_append]
    exact h.concat hmem

theorem alookup_eq_none_of_not_mem {α : Type} :
    ∀ (m : List (String × α)) (k : String), k ∉ keysOf m → alookup m k = none
  | [], _, _ => rfl
  | (k0, v0) :: rest, k, h => by
    simp only [keysOf, List.mem_cons, not_or] at h
    have hne : ¬ k0 = k := fun hh => h.1 hh.symm
    simp [alookup, hne, alookup_eq_none_of_not_mem rest k h.2]

theorem alookup_of_mem_nodup {α : Type} :
    ∀ (m : List (String × α)) (k : String) (v : α),
    (keysOf m).Nodup → (k, v) ∈ m → alookup m k = some v
  | [], k, v, _, hm => by cases hm
  | (k0, v0) :: rest, k, v, hnd, hm => by
    have hnd' := List.nodup_cons.1 (show (k0 :: keysOf rest).Nodup from hnd)
    rcases List.mem_cons.1 hm with h | h
    · cases h
      simp [alookup]
    · have hk : k0 ≠ k := by
        intro hed
        subst hed
        exact hnd'.1 (by
          clear hnd hnd' hm
          induction rest with
          | nil => cases h
          | cons kv tail ih =>
            rcases List.mem_cons.1 h with h' | h'
            · cases h'
              exact List.mem_cons_self _ _
            · exact List.mem_cons_of_mem _ (ih h'))
      simp [alookup, hk, alookup_of_mem_nodup rest k v hnd'.2 h]

/- config_merger.py lemmas. -/

theorem buildFileMap_cons (start : List (String × String)) (kv : String × String)
    (rest : List (String × String)) :
    buildFileMap start (kv :: rest) = buildFileMap (pyInsert start kv.1 kv.2) rest := by
  simp [buildFileMap, List.foldl]

theorem alookup_buildFileMap :
    ∀ (files start : List (String × String)), (keysOf files).Nodup → ∀ (p : String),
    alookup (buildFileMap start files) p =
      match alookup files p with
      | some v => some v
      | none => alookup start p
  | [], start, _, p => by simp [buildFileMap, alookup]
  | (k0, v0) :: rest, start, h, p => by
    have hnd := List.nodup_cons.1 (show (k0 :: keysOf rest).Nodup from h)
    rw [buildFileMap_cons]
    rw [alookup_buildFileMap rest _ hnd.2 p]
    by_cases hp : k0 = p
    · subst hp
      rw [alookup_eq_none_of_not_mem rest k0 hnd.1]
      simp [alookup, alookup_pyInsert_self]
    · rw [show alookup ((k0, v0) :: rest) p = alookup rest p by simp [alookup, hp]]
      rw [alookup_pyInsert_other _ _ _ _ hp]

theorem keysOf_buildFileMap_nodup :
    ∀ (files start : List (String × String)), (keysOf start).Nodup →
    (keysOf (buildFileMap start files)).Nodup
  | [], start, h => h
  | kv :: rest, start, h => by
    rw [buildFileMap_cons]
    exact keysOf_buildFileMap_nodup rest _ (keysOf_pyInsert_nodup _ _ _ h)

theorem pyInsert_eq_of_alookup {α : Type} :
    ∀ (m : List (String × α)) (k : String) (v : α), alookup m k = some v →
    pyInsert m k v = m
  | [], k, v, h => by simp [alookup] at h
  | (k0, v0) :: rest, k, v, h => by
    by_cases hk : k0 = k
    · have hv : v0 = v := by
        simp [alookup, hk] at h
        exact h
      simp [pyInsert, hk, hv]
    · simp only [alookup, hk, if_false] at h
      simp [pyInsert, hk, pyInsert_eq_of_alookup rest k v h]

theorem buildFileMap_self :
    ∀ (files M : List (String × String)), (∀ kv ∈ files, alookup M kv.1 = some kv.2) →
    buildFileMap M files = M
  | [], M, _ => rfl
  | kv :: rest, M, h => by
    rw [buildFileMap_cons, pyInsert_eq_of_alookup _ _ _ (h kv (List.mem_cons_self _ _))]
    exact buildFileMap_self rest M (fun kv' h' => h kv' (List.mem_cons_of_mem _ h'))

/-- C8: for every pair of scanned directory trees (with the distinct
    relative paths a filesystem walk produces), the Namespace Map binds a
    path present in both trees to the environment file, a path present in
    one tree to that tree's file, has unique keys, and overlaying the
    environment tree a second time leaves the map unchanged. -/
theorem c8_namespace_map_overlay (g e : List (String × String))
    (hg : (keysOf g).Nodup) (he : (keysOf e).Nodup) :
    (∀ p, alookup (merge_env_configs g e) p =
      match alookup e p with
      | some v => some v
      | none => alookup g p)
    ∧ (keysOf (merge_env_configs g e)).Nodup
    ∧ buildFileMap (merge_env_configs g e) e = merge_env_configs g e := by
  have hlook : ∀ p, alookup (merge_env_configs g e) p =
      match alookup e p with
      | some v => some v
      | none => alookup g p := by
    intro p
    unfold merge_env_configs
    rw [alookup_buildFileMap e _ he p]
    cases halo : alookup e p with
    | some v => rfl
    | none =>
      rw [alookup_buildFileMap g [] hg p]
      cases alookup g p <;> simp [alookup]
  refine ⟨hlook, ?_, ?_⟩
  · exact keysOf_buildFileMap_nodup _ _ (keysOf_buildFileMap_nodup _ _ (by simp [keysOf]))
  · refine buildFileMap_self _ _ (fun kv hkv => ?_)
    rw [hlook kv.1]
    rw [alookup_of_mem_nodup e kv.1 kv.2 he hkv]

/-- Witness for c8_namespace_map_overlay at a concrete pair of trees. -/
theorem c8_namespace_map_overlay_witness :
    alookup (merge_env_configs [("resources.yaml", "G1"), ("config/common.yaml", "G2")]
                               [("config/common.yaml", "E1"), ("values.yaml", "E2")])
        "config/common.yaml"
      = some "E1" := by
  have h := c8_namespace_map_overlay
      [("resources.yaml", "G1"), ("config/common.yaml", "G2")]
      [("config/common.yaml", "E1"), ("values.yaml", "E2")]
      (by decide) (by decide)
  rw [h.1 "config/common.yaml"]
  rfl

/- ref_resolver.py lemmas and claims. -/

theorem resolve_refs_recursive_ref_step (fuel : Nat) (m : List (String × Val))
    (visited : List String) (d : ValDict) (ctx rv : String) (content : Val)
    (refPath : String)
    (h1 : dlookup d "$ref" = some (Val.str rv))
    (h2 : (ctx ++ "->" ++ rv) ∉ visited)
    (h3 : resolve_ref m rv ctx = .ok (content, refPath)) :
    resolve_refs_recursive (fuel+1) m visited (Val.dict d) ctx
      = resolve_refs_recursive fuel m ((ctx ++ "->" ++ rv) :: visited) content refPath := by
  simp only [resolve_refs_recursive, h1, h3, if_neg h2]

theorem resolve_ref_path_eq (m : List (String × Val)) (rv ctx : String) (content : Val)
    (p : String) (h : resolve_ref m rv ctx = .ok (content, p)) :
    p = referencedFilePath ctx (pyStripQuotes (splitFirstHash rv).1) := by
  unfold resolve_ref at h
  dsimp only at h
  split at h
  · cases h
  · split at h
    · cases h
      rfl
    · split at h
      · cases h
        rfl
      · cases h

/-- C1 (the code contradicts the claim): the cycle marker added for a
    (walk-context-path, ref-value) pair is never removed (its removal is
    commented out in the source), so in the acyclic document whose two
    independent entries both reference b.yaml, resolution raises the
    circular-reference error instead of succeeding; a genuine direct cycle
    also raises the circular-reference error. -/
theorem c1_marker_not_scoped_to_expansion :
    resolve_refs 10 "a.yaml" mapIndependentRefs = .error (.circular "a.yaml->b.yaml#")
    ∧ resolve_refs 10 "a.yaml" mapTrueCycle = .error (.circular "a.yaml->b.yaml#/y") :=
  ⟨rfl, rfl⟩

/-- C4: the referenced logical path is re-anchored at the directory of the
    file currently being walked, and resolution of the fetched content
    continues with the referenced file's own path as the new context: the
    reference step rewrites to a recursive call whose context is the path
    returned by resolve_ref, that path equals the normalised join of the
    current file's directory with the (quote-stripped) file part, the
    concrete hops compute b/c.yaml → b/d.yaml (not d.yaml) and a.yaml →
    b/c.yaml, and the end-to-end multi-hop document resolves to the content
    of b/d.yaml rather than the decoy d.yaml. -/
theorem c4_ref_resolution_path_hop_correct :
    (∀ (fuel : Nat) (m : List (String × Val)) (visited : List String) (d : ValDict)
       (ctx rv : String) (content : Val) (refPath : String),
       dlookup d "$ref" = some (Val.str rv) →
       (ctx ++ "->" ++ rv) ∉ visited →
       resolve_ref m rv ctx = .ok (content, refPath) →
       resolve_refs_recursive (fuel+1) m visited (Val.dict d) ctx
         = resolve_refs_recursive fuel m ((ctx ++ "->" ++ rv) :: visited) content refPath)
    ∧ (∀ (m : List (String × Val)) (rv ctx : String) (content : Val) (p : String),
       resolve_ref m rv ctx = .ok (content, p) →
       p = referencedFilePath ctx (pyStripQuotes (splitFirstHash rv).1))
    ∧ referencedFilePath "b/c.yaml" "./d.yaml" = "b/d.yaml"
    ∧ referencedFilePath "a.yaml" "b/c.yaml" = "b/c.yaml"
    ∧ resolve_refs 10 "a.yaml" mapMultiHop = .ok (Val.dict (toValDict [("k", Val.str "right")])) :=
  ⟨resolve_refs_recursive_ref_step, resolve_ref_path_eq, rfl, rfl, rfl⟩

/-- Witness for c4_ref_resolution_path_hop_correct: the reference step of
    the multi-hop example, instantiated concretely. -/
theorem c4_ref_resolution_path_hop_correct_witness :
    resolve_refs_recursive 6 mapMultiHop []
        (Val.dict (toValDict [("$ref", Val.str "b/c.yaml#")])) "a.yaml"
      = resolve_refs_recursive 5 mapMultiHop ["a.yaml->b/c.yaml#"]
          (Val.dict (toValDict [("$ref", Val.str "./d.yaml#")])) "b/c.yaml" :=
  c4_ref_resolution_path_hop_correct.1 5 mapMultiHop []
    (toValDict [("$ref", Val.str "b/c.yaml#")]) "a.yaml" "b/c.yaml#"
    (Val.dict (toValDict [("$ref", Val.str "./d.yaml#")])) "b/c.yaml"
    rfl (by simp) rfl

/-- C9: a mapping containing a $ref key resolves exactly as the mapping
    holding only that $ref binding — every sibling key is discarded and the
    branch is taken whenever the key is present; concretely, a mapping with
    a $ref and a sibling resolves to the bare target value. -/
theorem c9_ref_branch_discards_siblings :
    (∀ (fuel : Nat) (m : List (String × Val)) (visited : List String) (d : ValDict)
       (v : Val) (ctx : String),
       dlookup d "$ref" = some v →
       resolve_refs_recursive fuel m visited (Val.dict d) ctx
         = resolve_refs_recursive fuel m visited (Val.dict (.cons "$ref" v .nil)) ctx)
    ∧ resolve_refs 10 "s.yaml" mapRefSiblings = .ok (Val.str "target-value") := by
  refine ⟨?_, rfl⟩
  intro fuel m visited d v ctx h
  cases fuel with
  | zero => rfl
  | succ fuel =>
    simp only [resolve_refs_recursive, h, dlookup]
    simp

/-- Witness for c9_ref_branch_discards_siblings: the sibling-carrying
    mapping of the concrete example resolves exactly as its bare $ref
    mapping. -/
theorem c9_ref_branch_discards_siblings_witness :
    resolve_refs_recursive 9 mapRefSiblings []
        (Val.dict (toValDict [("$ref", Val.str "t.yaml#"), ("keep", Val.int 5)])) "s.yaml"
      = resolve_refs_recursive 9 mapRefSiblings []
          (Val.dict (.cons "$ref" (Val.str "t.yaml#") .nil)) "s.yaml" :=
  c9_ref_branch_discards_siblings.1 9 mapRefSiblings []
    (toValDict [("$ref", Val.str "t.yaml#"), ("keep", Val.int 5)])
    (Val.str "t.yaml#") "s.yaml" rfl

/- placeholder_substitutor.py lemmas and claims. -/

mutual

theorem substOnePassVal_of_not_contains : ∀ (v : Val) (records : ValDict),
    containsPlaceholdersVal v = false → substOnePassVal v records = .ok (false, v)
  | Val.str s, records, h => by
    have hft : findTokens s = [] := by
      simpa [containsPlaceholdersVal] using h
    simp [substOnePassVal, substitute_in_string, hft, substTokensGo]
  | Val.int _, _, _ => rfl
  | Val.bool _, _, _ => rfl
  | Val.null, _, _ => rfl
  | Val.list l, records, h => by
    have h' : containsPlaceholdersItems l = false := h
    simp [substOnePassVal, substOnePassItems_of_not_contains l records h']
  | Val.dict d, records, h => by
    have h' : containsPlaceholdersEntries d = false := h
    simp [substOnePassVal, substOnePassEntries_of_not_contains d records h']

theorem substOnePassEntries_of_not_contains : ∀ (d : ValDict) (records : ValDict),
    containsPlaceholdersEntries d = false → substOnePassEntries d records = .ok (false, d)
  | .nil, _, _ => rfl
  | .cons k v rest, records, h => by
    rw [containsPlaceholdersEntries, Bool.or_eq_false_iff] at h
    simp [substOnePassEntries, substOnePassVal_of_not_contains v records h.1,
      substOnePassEntries_of_not_contains rest records h.2]

theorem substOnePassItems_of_not_contains : ∀ (l : ValList) (records : ValDict),
    containsPlaceholdersItems l = false → substOnePassItems l records = .ok (false, l)
  | .nil, _, _ => rfl
  | .cons item rest, records, h => by
    rw [containsPlaceholdersItems, Bool.or_eq_false_iff] at h
    simp [substOnePassItems, substOnePassVal_of_not_contains item records h.1,
      substOnePassItems_of_not_contains rest records h.2]

end

/-- C5: substitution is a bounded fixed-point iteration: a pass that makes no
    replacement ends the loop at once with its result; a tree containing no
    placeholder token is returned unchanged under any iteration budget; and
    on the mutually self-referential context pair a → (token b), b →
    (token a), the budget of 10 passes is exhausted and the fatal
    circular-or-unresolved error is raised carrying the offending token
    (token a) as example. -/
theorem c5_substitution_bounded_iteration :
    (∀ (records : ValDict) (d d' : Val) (n : Nat),
       substOnePassVal d records = .ok (false, d') →
       substituteAux records (n+1) d = .ok d')
    ∧ (∀ (records : ValDict) (d : Val) (n : Nat),
       containsPlaceholdersVal d = false → substituteAux records n d = .ok d)
    ∧ substitute_placeholders (Val.str "\x7b\x7ba\x7d\x7d") ctxMutual 10
        = .error (.circular "\x7b\x7ba\x7d\x7d") := by
  refine ⟨?_, ?_, rfl⟩
  · intro records d d' n h
    simp [substituteAux, h]
  · intro records d n h
    induction n with
    | zero => simp [substituteAux, h]
    | succ n ih =>
      simp [substituteAux, substOnePassVal_of_not_contains d records h, ih]

/-- Witness for c5_substitution_bounded_iteration: a placeholder-free scalar
    is returned unchanged. -/
theorem c5_substitution_bounded_iteration_witness :
    substituteAux ctxMutual 3 (Val.str "plain") = .ok (Val.str "plain") :=
  c5_substitution_bounded_iteration.2.1 ctxMutual (Val.str "plain") 3 rfl

theorem substTokensGo_of_failing (records : ValDict) :
    ∀ (ts : List String) (b : Bool) (acc : String) (p : String),
    firstFailingPath records ts = some p →
    substTokensGo records ts b acc = .error (.placeholderNotFound p)
  | [], b, acc, p, h => by simp [firstFailingPath] at h
  | t :: ts, b, acc, p, h => by
    cases hget : get_value_by_path records (pyStrip t) with
    | some v =>
      simp only [firstFailingPath, hget] at h
      simp [substTokensGo, hget, substTokensGo_of_failing records ts true _ p h]
    | none =>
      simp only [firstFailingPath, hget, Option.some.injEq] at h
      subst h
      simp [substTokensGo, hget]

theorem substTokensGo_of_resolving (records : ValDict) :
    ∀ (ts : List String) (b : Bool) (acc : String),
    firstFailingPath records ts = none →
    ∃ c out, substTokensGo records ts b acc = .ok (c, out)
  | [], b, acc, _ => ⟨b, acc, rfl⟩
  | t :: ts, b, acc, h => by
    cases hget : get_value_by_path records (pyStrip t) with
    | some v =>
      simp only [firstFailingPath, hget] at h
      obtain ⟨c, out, heq⟩ := substTokensGo_of_resolving records ts true
        (strReplace acc ("\x7b\x7b" ++ t ++ "\x7d\x7d") (pyStr v)) h
      exact ⟨c, out, by simp [substTokensGo, hget, heq]⟩
    | none =>
      simp [firstFailingPath, hget] at h

/-- C6: in _substitute_in_string, if the whitespace-trimmed dotted path of
    some token of the string fails to resolve in the records context (a
    missing segment or a non-mapping node mid-path), the fatal
    placeholder-not-found error naming exactly that trimmed path is raised
    (at the first such token, never skipped); if every token resolves, the
    call succeeds.  Concretely: the round-trip template resolves to
    "h:5432" in one string pass (literal token text replaced by the value's
    string form), a missing nested key raises the error naming
    "db.missing", and a path through a non-mapping raises the error naming
    "a.b". -/
theorem c6_missing_placeholder_fatal :
    (∀ (s : String) (records : ValDict) (p : String),
       firstFailingPath records (findTokens s) = some p →
       substitute_in_string s records = .error (.placeholderNotFound p))
    ∧ (∀ (s : String) (records : ValDict),
       firstFailingPath records (findTokens s) = none →
       ∃ c out, substitute_in_string s records = .ok (c, out))
    ∧ substitute_in_string "\x7b\x7bdb.host\x7d\x7d:\x7b\x7bdb.port\x7d\x7d" ctxDb
        = .ok (true, "h:5432")
    ∧ substitute_in_string "\x7b\x7b db.missing \x7d\x7d" ctxDb
        = .error (.placeholderNotFound "db.missing")
    ∧ substitute_in_string "\x7b\x7ba.b\x7d\x7d" ctxScalarA
        = .error (.placeholderNotFound "a.b") := by
  refine ⟨?_, ?_, rfl, rfl, rfl⟩
  · intro s records p h
    exact substTokensGo_of_failing records (findTokens s) false s p h
  · intro s records h
    exact substTokensGo_of_resolving records (findTokens s) false s h

/-- Witness for c6_missing_placeholder_fatal: the error names the trimmed
    dotted path of the failing token. -/
theorem c6_missing_placeholder_fatal_witness :
    substitute_in_string "\x7b\x7bmissing.key\x7d\x7d" ctxDb
      = .error (.placeholderNotFound "missing.key") :=
  c6_missing_placeholder_fatal.1 "\x7b\x7bmissing.key\x7d\x7d" ctxDb "missing.key" rfl

/- merge_key_processor.py lemmas and claims. -/

theorem deep_merge_dicts_cons (t : ValDict) (k0 : String) (sv : Val) (rest : ValDict) :
    deep_merge_dicts t (.cons k0 sv rest)
      = deep_merge_dicts (dinsert t k0 (mergedVal (dlookup t k0) sv)) rest := by
  cases sv <;>
    (cases hl : dlookup t k0 with
     | none => simp [deep_merge_dicts, mergedVal, hl]
     | some tv => cases tv <;> simp [deep_merge_dicts, mergedVal, hl])

theorem mergedVal_as_match (o : Option Val) (sv : Val) :
    (match o, (some sv : Option Val) with
     | some (Val.dict td), some (Val.dict sd) => some (Val.dict (deep_merge_dicts td sd))
     | _, some sv' => some sv'
     | some tv, none => some tv
     | none, none => none)
      = some (mergedVal o sv) := by
  cases sv <;>
    (cases o with
     | none => simp [mergedVal]
     | some tv => cases tv <;> simp [mergedVal])

theorem dlookup_deep_merge_dicts : ∀ (s t : ValDict) (k : String), (dkeys s).Nodup →
    dlookup (deep_merge_dicts t s) k =
      match dlookup t k, dlookup s k with
      | some (Val.dict td), some (Val.dict sd) => some (Val.dict (deep_merge_dicts td sd))
      | _, some sv' => some sv'
      | some tv, none => some tv
      | none, none => none
  | .nil, t, k, _ => by
    rw [show deep_merge_dicts t .nil = t from rfl]
    rw [show dlookup ValDict.nil k = none from rfl]
    cases dlookup t k with
    | some v => cases v <;> rfl
    | none => rfl
  | .cons k0 sv rest, t, k, h => by
    have hnd := List.nodup_cons.1 (show (k0 :: dkeys rest).Nodup from h)
    rw [deep_merge_dicts_cons]
    rw [dlookup_deep_merge_dicts rest _ k hnd.2]
    by_cases hk : k = k0
    · subst hk
      rw [dlookup_eq_none_of_not_mem rest k hnd.1]
      rw [dlookup_dinsert_self]
      rw [show dlookup (ValDict.cons k sv rest) k = some sv by simp [dlookup]]
      rw [mergedVal_as_match]
      cases mergedVal (dlookup t k) sv <;> rfl
    · have hk' : k0 ≠ k := fun hh => hk hh.symm
      rw [dlookup_dinsert_other t k0 k _ hk']
      rw [show dlookup (ValDict.cons k0 sv rest) k = dlookup rest k by simp [dlookup, hk']]

/-- C3: one step of deep-merge stores, at every key, the recursive merge
    exactly when both sides hold mappings and the higher-priority (source)
    value outright otherwise, keys of either side surviving (characterised
    pointwise by dlookup_deep_merge_dicts applied to the fold); and on the
    concrete node with fragments [(x 1, y 2), (x 9, z 3)] and sibling y 5,
    composition folds the fragments from last to first and layers the
    sibling on top, yielding exactly x 1, y 5, z 3 (the first fragment's x
    beats the second's, the sibling's y beats both). -/
theorem c3_merge_key_priority_and_deep_merge :
    (∀ (s t : ValDict) (k : String), (dkeys s).Nodup →
       dlookup (deep_merge_dicts t s) k =
         match dlookup t k, dlookup s k with
         | some (Val.dict td), some (Val.dict sd) => some (Val.dict (deep_merge_dicts td sd))
         | _, some sv' => some sv'
         | some tv, none => some tv
         | none, none => none)
    ∧ merge_yaml_with_merge_keys 5 mergeKeyExampleNode = .ok (Val.dict mergeKeyExampleResult)
    ∧ dlookup mergeKeyExampleResult "x" = some (Val.int 1)
    ∧ dlookup mergeKeyExampleResult "y" = some (Val.int 5)
    ∧ dlookup mergeKeyExampleResult "z" = some (Val.int 3)
    ∧ dkeys mergeKeyExampleResult = ["x", "z", "y"] :=
  ⟨dlookup_deep_merge_dicts, rfl, rfl, rfl, rfl, rfl⟩

/-- Witness for c3_merge_key_priority_and_deep_merge: a scalar source value
    overrides a mapping target value outright (no element-wise merging). -/
theorem c3_merge_key_priority_and_deep_merge_witness :
    dlookup (deep_merge_dicts (toValDict [("a", Val.dict (toValDict [("b", Val.int 1)]))])
                              (toValDict [("a", Val.int 7)])) "a"
      = some (Val.int 7) := by
  have h := c3_merge_key_priority_and_deep_merge.1
    (toValDict [("a", Val.int 7)])
    (toValDict [("a", Val.dict (toValDict [("b", Val.int 1)]))]) "a"
    (by simp [toValDict, dkeys])
  rw [h]
  rfl

/- config_processor.py lemmas and claims. -/

theorem findServiceEntry_name : ∀ (l : ValList) (name : String) (entry : ValDict),
    findServiceEntry l name = some entry → dlookup entry "name" = some (Val.str name)
  | .nil, name, entry, h => by simp [findServiceEntry] at h
  | .cons e rest, name, entry, h => by
    cases e with
    | dict d0 =>
      cases hn : dlookup d0 "name" with
      | some v =>
        cases v with
        | str n =>
          by_cases hnn : n = name
          · subst hnn
            simp [findServiceEntry, hn] at h
            subst h
            exact hn
          · simp only [findServiceEntry, hn, if_neg hnn] at h
            exact findServiceEntry_name rest name entry h
        | int i => exact findServiceEntry_name rest name entry (by simpa [findServiceEntry, hn] using h)
        | bool b => exact findServiceEntry_name rest name entry (by simpa [findServiceEntry, hn] using h)
        | null => exact findServiceEntry_name rest name entry (by simpa [findServiceEntry, hn] using h)
        | list l0 => exact findServiceEntry_name rest name entry (by simpa [findServiceEntry, hn] using h)
        | dict d1 => exact findServiceEntry_name rest name entry (by simpa [findServiceEntry, hn] using h)
      | none =>
        simp only [findServiceEntry, hn] at h
        exact findServiceEntry_name rest name entry h
    | str s => exact findServiceEntry_name rest name entry (by simpa [findServiceEntry] using h)
    | int i => exact findServiceEntry_name rest name entry (by simpa [findServiceEntry] using h)
    | bool b => exact findServiceEntry_name rest name entry (by simpa [findServiceEntry] using h)
    | null => exact findServiceEntry_name rest name entry (by simpa [findServiceEntry] using h)
    | list l0 => exact findServiceEntry_name rest name entry (by simpa [findServiceEntry] using h)

theorem findServiceEntry_none_of_no_match : ∀ (l : ValList) (name : String),
    (∀ (e : Val) (ed : ValDict), vlMem e l → e = Val.dict ed →
      dlookup ed "name" ≠ some (Val.str name)) →
    findServiceEntry l name = none
  | .nil, _, _ => rfl
  | .cons e rest, name, h => by
    have hrest := findServiceEntry_none_of_no_match rest name
      (fun e' ed hm he => h e' ed (Or.inr hm) he)
    cases e with
    | dict d0 =>
      cases hn : dlookup d0 "name" with
      | some v =>
        cases v with
        | str n =>
          have hne : n ≠ name := by
            intro hnn
            exact h (Val.dict d0) d0 (Or.inl rfl) rfl (hnn ▸ hn)
          simp [findServiceEntry, hn, hne, hrest]
        | int i => simp [findServiceEntry, hn, hrest]
        | bool b => simp [findServiceEntry, hn, hrest]
        | null => simp [findServiceEntry, hn, hrest]
        | list l0 => simp [findServiceEntry, hn, hrest]
        | dict d1 => simp [findServiceEntry, hn, hrest]
      | none => simp [findServiceEntry, hn, hrest]
    | str s => simpa [findServiceEntry] using hrest
    | int i => simpa [findServiceEntry] using hrest
    | bool b => simpa [findServiceEntry] using hrest
    | null => simpa [findServiceEntry] using hrest
    | list l0 => simpa [findServiceEntry] using hrest

theorem no_match_of_findServiceEntry_none : ∀ (l : ValList) (name : String),
    findServiceEntry l name = none →
    ∀ (e : Val) (ed : ValDict), vlMem e l → e = Val.dict ed →
      dlookup ed "name" ≠ some (Val.str name)
  | .nil, _, _, e, ed, hm, _, _ => hm.elim
  | .cons e0 rest, name, h, e, ed, hm, he, hname => by
    subst he
    cases hm with
    | inl heq =>
      subst heq
      simp [findServiceEntry, hname] at h
    | inr hrest =>
      have hrestnone : findServiceEntry rest name = none := by
        cases e0 with
        | dict d0 =>
          cases hn : dlookup d0 "name" with
          | some v =>
            cases v with
            | str n =>
              by_cases hnn : n = name
              · subst hnn
                simp [findServiceEntry, hn] at h
              · simpa [findServiceEntry, hn, hnn] using h
            | int i => simpa [findServiceEntry, hn] using h
            | bool b => simpa [findServiceEntry, hn] using h
            | null => simpa [findServiceEntry, hn] using h
            | list l0 => simpa [findServiceEntry, hn] using h
            | dict d1 => simpa [findServiceEntry, hn] using h
          | none => simpa [findServiceEntry, hn] using h
        | str s => simpa [findServiceEntry] using h
        | int i => simpa [findServiceEntry] using h
        | bool b => simpa [findServiceEntry] using h
        | null => simpa [findServiceEntry] using h
        | list l0 => simpa [findServiceEntry] using h
      exact no_match_of_findServiceEntry_none rest name hrestnone (Val.dict ed) ed hrest rfl hname

/-- C7: service lookup is exact and fallback-free.  When the services
    sequence holds a mapping named as requested (and its substitution
    succeeds), the pipeline returns exactly the one-key mapping binding that
    name to the substituted entry, and the entry found always carries the
    requested name; when no element matches, the stage fails with the
    service-lookup error listing the available name values; matching fails
    for every element exactly when no mapping element carries the requested
    name; and a services value that is a single mapping is processed as the
    one-element sequence holding it. -/
theorem c7_service_lookup_exact_match :
    (∀ (d : ValDict) (l : ValList) (entry : ValDict) (name : String) (final : Val),
       dlookup d "services" = some (Val.list l) →
       findServiceEntry l name = some entry →
       substitute_placeholders (Val.dict entry) (extractRecordsContext entry) 10 = .ok final →
       process_config_package_resolved (Val.dict d) name = .ok (.cons name final .nil)
         ∧ dlookup entry "name" = some (Val.str name))
    ∧ (∀ (d : ValDict) (l : ValList) (name : String),
       dlookup d "services" = some (Val.list l) →
       findServiceEntry l name = none →
       process_config_package_resolved (Val.dict d) name
         = .error (.serviceNotFound name (availableServiceNames l)))
    ∧ (∀ (l : ValList) (name : String),
       findServiceEntry l name = none ↔
         ∀ (e : Val) (ed : ValDict), vlMem e l → e = Val.dict ed →
           dlookup ed "name" ≠ some (Val.str name))
    ∧ (∀ (d sd : ValDict) (name : String),
       dlookup d "services" = some (Val.dict sd) →
       process_config_package_resolved (Val.dict d) name
         = processServicesList (.cons (Val.dict sd) .nil) name) := by
  refine ⟨?_, ?_, ?_, ?_⟩
  · intro d l entry name final hs hf hsub
    constructor
    · simp only [process_config_package_resolved, hs, processServicesList, hf, hsub]
    · exact findServiceEntry_name l name entry hf
  · intro d l name hs hf
    simp only [process_config_package_resolved, hs, processServicesList, hf]
  · intro l name
    exact ⟨no_match_of_findServiceEntry_none l name, findServiceEntry_none_of_no_match l name⟩
  · intro d sd name hs
    simp only [process_config_package_resolved, hs]

/-- Witness for c7_service_lookup_exact_match: requesting Y from services
    [X, Y] returns exactly the one-key mapping Y ↦ Y's entry, and the entry
    carries name Y. -/
theorem c7_service_lookup_exact_match_witness :
    process_config_package_resolved servicesDoc "Y"
        = .ok (.cons "Y" (Val.dict serviceEntryY) .nil)
      ∧ dlookup serviceEntryY "name" = some (Val.str "Y") :=
  c7_service_lookup_exact_match.1
    (toValDict
      [("services", Val.list (toValList
          [Val.dict (toValDict [("name", Val.str "X"), ("cfg", Val.int 1)]),
           Val.dict (toValDict [("name", Val.str "Y"), ("cfg", Val.int 2)])]))])
    (toValList
      [Val.dict (toValDict [("name", Val.str "X"), ("cfg", Val.int 1)]),
       Val.dict (toValDict [("name", Val.str "Y"), ("cfg", Val.int 2)])])
    serviceEntryY "Y" (Val.dict serviceEntryY) rfl rfl rfl

/-- C2 counterexample: on the document whose only placeholder token sits
    outside the service entry S, the pipeline stage succeeds — the outside
    placeholder is neither substituted nor even looked up — while the
    claimed whole-document substitution would abort with the
    placeholder-not-found error for "nope". -/
theorem c2_counterexample_outside_placeholder_ignored :
    process_config_package_resolved docOutsidePlaceholder "S"
        = .ok (.cons "S" (Val.dict (toValDict [("name", Val.str "S")])) .nil)
      ∧ processWholeDocSubstitution docOutsidePlaceholder "S"
        = .error (.placeholder (.placeholderNotFound "nope")) :=
  ⟨rfl, rfl⟩

/-- C2 (amended): placeholder substitution runs only over the extracted
    service entry, using that entry's records context: whenever the services
    sequence holds a matching entry, the stage's result is exactly the
    result of substituting the entry alone (wrapped under the service name
    on success, or the propagated placeholder error), independent of any
    placeholder elsewhere in the resolved document. -/
theorem c2_substitution_scoped_to_service_entry :
    ∀ (d : ValDict) (l : ValList) (entry : ValDict) (name : String),
    dlookup d "services" = some (Val.list l) →
    findServiceEntry l name = some entry →
    process_config_package_resolved (Val.dict d) name =
      match substitute_placeholders (Val.dict entry) (extractRecordsContext entry) 10 with
      | .ok v => .ok (.cons name v .nil)
      | .error e => .error (.placeholder e) := by
  intro d l entry name hs hf
  simp only [process_config_package_resolved, hs, processServicesList, hf]
  cases substitute_placeholders (Val.dict entry) (extractRecordsContext entry) 10 <;> rfl

/-- Witness for c2_substitution_scoped_to_service_entry at the
    counterexample document. -/
theorem c2_substitution_scoped_to_service_entry_witness :
    process_config_package_resolved docOutsidePlaceholder "S" =
      match substitute_placeholders (Val.dict (toValDict [("name", Val.str "S")]))
              (extractRecordsContext (toValDict [("name", Val.str "S")])) 10 with
      | .ok v => .ok (.cons "S" v .nil)
      | .error e => .error (.placeholder e) :=
  c2_substitution_scoped_to_service_entry
    (toValDict
      [("services", Val.list (toValList [Val.dict (toValDict [("name", Val.str "S")])])),
       ("other", Val.str "\x7b\x7bnope\x7d\x7d")])
    (toValList [Val.dict (toValDict [("name", Val.str "S")])])
    (toValDict [("name", Val.str "S")]) "S" rfl rfl

/- Heap basics. -/

theorem memLookup_mem : ∀ (m : List (Nat × Obj)) (a : Nat) (o : Obj),
    memLookup m a = some o → (a, o) ∈ m
  | [], a, o, h => by simp [memLookup] at h
  | (a0, o0) :: rest, a, o, h => by
    by_cases ha : a0 = a
    · subst ha
      simp [memLookup] at h
      subst h
      exact List.mem_cons_self _ _
    · simp only [memLookup, ha, if_false] at h
      exact List.mem_cons_of_mem _ (memLookup_mem rest a o h)

theorem heapLookup_lt_next (h : Heap) (a : Nat) (o : Obj) (hwf : heapWF h)
    (hl : heapLookup h a = some o) : a < h.next :=
  hwf (a, o) (memLookup_mem h.mem a o hl)

theorem memSet_lookup_other : ∀ (m : List (Nat × Obj)) (a : Nat) (o : Obj) (b : Nat),
    b ≠ a → memLookup (memSet m a o) b = memLookup m b
  | [], _, _, _, _ => rfl
  | (a0, o0) :: rest, a, o, b, hb => by
    by_cases ha : a0 = a
    · subst ha
      have hne : ¬ a0 = b := fun hh => hb hh.symm
      simp [memSet, memLookup, hne]
    · simp [memSet, ha, memLookup, memSet_lookup_other rest a o b hb]

theorem memSet_lookup_cases : ∀ (m : List (Nat × Obj)) (a : Nat) (o : Obj) (b : Nat),
    memLookup (memSet m a o) b = memLookup m b
    ∨ (b = a ∧ memLookup (memSet m a o) b = some o)
  | [], _, _, _ => Or.inl rfl
  | (a0, o0) :: rest, a, o, b => by
    by_cases ha : a0 = a
    · subst ha
      by_cases hb : a0 = b
      · subst hb
        exact Or.inr ⟨rfl, by simp [memSet, memLookup]⟩
      · refine Or.inl ?_
        simp [memSet, memLookup, hb]
    · by_cases hb : a0 = b
      · subst hb
        refine Or.inl ?_
        simp [memSet, ha, memLookup]
      · have := memSet_lookup_cases rest a o b
        simpa [memSet, ha, memLookup, hb] using this

theorem memSet_fst_mem : ∀ (m : List (Nat × Obj)) (a : Nat) (o : Obj) (p : Nat × Obj),
    p ∈ memSet m a o → ∃ q ∈ m, p.1 = q.1
  | [], _, _, p, hp => by cases hp
  | (a0, o0) :: rest, a, o, p, hp => by
    by_cases ha : a0 = a
    · subst ha
      simp only [memSet, if_pos rfl] at hp
      rcases List.mem_cons.1 hp with h | h
      · exact ⟨(a0, o0), List.mem_cons_self _ _, by simp [h]⟩
      · exact ⟨p, List.mem_cons_of_mem _ h, rfl⟩
    · simp only [memSet, ha, if_false] at hp
      rcases List.mem_cons.1 hp with h | h
      · exact ⟨(a0, o0), List.mem_cons_self _ _, by simp [h]⟩
      · obtain ⟨q, hq, he⟩ := memSet_fst_mem rest a o p h
        exact ⟨q, List.mem_cons_of_mem _ hq, he⟩

theorem heapWF_heapSet (h : Heap) (a : Nat) (o : Obj) (hwf : heapWF h) :
    heapWF (heapSet h a o) := by
  intro p hp
  obtain ⟨q, hq, he⟩ := memSet_fst_mem h.mem a o p hp
  have := hwf q hq
  simp only [heapSet] at hp ⊢
  omega

theorem heapSet_next (h : Heap) (a : Nat) (o : Obj) : (heapSet h a o).next = h.next := rfl

theorem heapLookup_heapSet_other (h : Heap) (a : Nat) (o : Obj) (b : Nat) (hb : b ≠ a) :
    heapLookup (heapSet h a o) b = heapLookup h b :=
  memSet_lookup_other h.mem a o b hb

theorem heapLookup_heapSet_cases (h : Heap) (a : Nat) (o : Obj) (b : Nat) :
    heapLookup (heapSet h a o) b = heapLookup h b
    ∨ (b = a ∧ heapLookup (heapSet h a o) b = some o) :=
  memSet_lookup_cases h.mem a o b

theorem heapAlloc_next (h : Heap) (o : Obj) : (heapAlloc h o).2.next = h.next + 1 := rfl

theorem heapLookup_heapAlloc_lt (h : Heap) (o : Obj) (b : Nat) (hb : b < h.next) :
    heapLookup (heapAlloc h o).2 b = heapLookup h b := by
  have : h.next ≠ b := by omega
  simp [heapAlloc, heapLookup, memLookup, this]

theorem heapLookup_heapAlloc_self (h : Heap) (o : Obj) :
    heapLookup (heapAlloc h o).2 h.next = some o := by
  simp [heapAlloc, heapLookup, memLookup]

theorem heapWF_heapAlloc (h : Heap) (o : Obj) (hwf : heapWF h) :
    heapWF (heapAlloc h o).2 := by
  intro p hp
  simp only [heapAlloc] at hp
  rcases List.mem_cons.1 hp with he | he
  · subst he
    simp [heapAlloc]
  · have := hwf p he
    simp only [heapAlloc]
    omega

theorem nodup_append_of_bounds (A B : List Nat) (m : Nat) (hA : A.Nodup) (hB : B.Nodup)
    (h1 : ∀ a ∈ A, a < m) (h2 : ∀ b ∈ B, m ≤ b) : (A ++ B).Nodup := by
  refine List.Nodup.append hA hB ?_
  intro a ha hb
  have := h1 a ha
  have := h2 a hb
  omega

/- readTree toolkit: monotonicity in fuel, frame over untouched addresses,
   and the allocation bound. -/

mutual

theorem readTree_mono : ∀ (g g' : Nat) (h : Heap) (v : PyVal) (x : Val × List Nat),
    readTree g h v = some x → g ≤ g' → readTree g' h v = some x
  | g, g', h, PyVal.scalar s, x, hr, hg => by
    cases s <;> simpa [readTree] using hr
  | 0, g', h, PyVal.ref a, x, hr, hg => by simp [readTree] at hr
  | g0+1, g', h, PyVal.ref a, x, hr, hg => by
    obtain ⟨g1, rfl⟩ : ∃ g1, g' = g1 + 1 := ⟨g' - 1, by omega⟩
    have hg1 : g0 ≤ g1 := by omega
    simp only [readTree] at hr ⊢
    cases hl : heapLookup h a with
    | none => simp [hl] at hr
    | some o =>
      cases o with
      | dict es =>
        simp only [hl] at hr ⊢
        cases he : readTreeEntries g0 h es with
        | none => simp [he] at hr
        | some y =>
          rw [readTreeEntries_mono g0 g1 h es y he hg1]
          simpa [he] using hr
      | list is =>
        simp only [hl] at hr ⊢
        cases he : readTreeItems g0 h is with
        | none => simp [he] at hr
        | some y =>
          rw [readTreeItems_mono g0 g1 h is y he hg1]
          simpa [he] using hr

theorem readTreeEntries_mono : ∀ (g g' : Nat) (h : Heap) (es : List (String × PyVal))
    (x : ValDict × List Nat),
    readTreeEntries g h es = some x → g ≤ g' → readTreeEntries g' h es = some x
  | g, g', h, [], x, hr, hg => by
    simpa [readTreeEntries] using hr
  | 0, g', h, e :: rest, x, hr, hg => by simp [readTreeEntries] at hr
  | g0+1, g', h, (k, v) :: rest, x, hr, hg => by
    obtain ⟨g1, rfl⟩ : ∃ g1, g' = g1 + 1 := ⟨g' - 1, by omega⟩
    have hg1 : g0 ≤ g1 := by omega
    simp only [readTreeEntries] at hr ⊢
    cases hv : readTree g0 h v with
    | none => simp [hv] at hr
    | some y =>
      rw [readTree_mono g0 g1 h v y hv hg1]
      cases he : readTreeEntries g0 h rest with
      | none => simp [hv, he] at hr
      | some z =>
        rw [readTreeEntries_mono g0 g1 h rest z he hg1]
        simpa [hv, he] using hr

theorem readTreeItems_mono : ∀ (g g' : Nat) (h : Heap) (is : List PyVal)
    (x : ValList × List Nat),
    readTreeItems g h is = some x → g ≤ g' → readTreeItems g' h is = some x
  | g, g', h, [], x, hr, hg => by
    simpa [readTreeItems] using hr
  | 0, g', h, e :: rest, x, hr, hg => by simp [readTreeItems] at hr
  | g0+1, g', h, v :: rest, x, hr, hg => by
    obtain ⟨g1, rfl⟩ : ∃ g1, g' = g1 + 1 := ⟨g' - 1, by omega⟩
    have hg1 : g0 ≤ g1 := by omega
    simp only [readTreeItems] at hr ⊢
    cases hv : readTree g0 h v with
    | none => simp [hv] at hr
    | some y =>
      rw [readTree_mono g0 g1 h v y hv hg1]
      cases he : readTreeItems g0 h rest with
      | none => simp [hv, he] at hr
      | some z =>
        rw [readTreeItems_mono g0 g1 h rest z he hg1]
        simpa [hv, he] using hr

end

mutual

theorem readTree_frame : ∀ (g : Nat) (h h' : Heap) (v : PyVal) (t : Val) (A : List Nat),
    readTree g h v = some (t, A) → (∀ a ∈ A, heapLookup h' a = heapLookup h a) →
    readTree g h' v = some (t, A)
  | g, h, h', PyVal.scalar s, t, A, hr, ha => by
    cases s <;> simpa [readTree] using hr
  | 0, h, h', PyVal.ref a, t, A, hr, ha => by simp [readTree] at hr
  | g0+1, h, h', PyVal.ref a, t, A, hr, ha => by
    simp only [readTree] at hr ⊢
    cases hl : heapLookup h a with
    | none => simp [hl] at hr
    | some o =>
      cases o with
      | dict es =>
        simp only [hl] at hr
        cases he : readTreeEntries g0 h es with
        | none => simp [he] at hr
        | some y =>
          simp only [he, Option.some.injEq] at hr
          obtain ⟨ht, hA⟩ := Prod.mk.injEq .. ▸ hr
          have hmem : a ∈ A := by rw [← hA]; exact List.mem_cons_self _ _
          have hsub : ∀ b ∈ y.2, heapLookup h' b = heapLookup h b := by
            intro b hb
            apply ha
            rw [← hA]
            exact List.mem_cons_of_mem _ hb
          have hres := readTreeEntries_frame g0 h h' es y.1 y.2 (by simpa using he) hsub
          simp only [ha a hmem, hl, hres]
          exact congrArg some hr
      | list is =>
        simp only [hl] at hr
        cases he : readTreeItems g0 h is with
        | none => simp [he] at hr
        | some y =>
          simp only [he, Option.some.injEq] at hr
          obtain ⟨ht, hA⟩ := Prod.mk.injEq .. ▸ hr
          have hmem : a ∈ A := by rw [← hA]; exact List.mem_cons_self _ _
          have hsub : ∀ b ∈ y.2, heapLookup h' b = heapLookup h b := by
            intro b hb
            apply ha
            rw [← hA]
            exact List.mem_cons_of_mem _ hb
          have hres := readTreeItems_frame g0 h h' is y.1 y.2 (by simpa using he) hsub
          simp only [ha a hmem, hl, hres]
          exact congrArg some hr

theorem readTreeEntries_frame : ∀ (g : Nat) (h h' : Heap) (es : List (String × PyVal))
    (ds : ValDict) (A : List Nat),
    readTreeEntries g h es = some (ds, A) → (∀ a ∈ A, heapLookup h' a = heapLookup h a) →
    readTreeEntries g h' es = some (ds, A)
  | g, h, h', [], ds, A, hr, ha => by simpa [readTreeEntries] using hr
  | 0, h, h', e :: rest, ds, A, hr, ha => by simp [readTreeEntries] at hr
  | g0+1, h, h', (k, v) :: rest, ds, A, hr, ha => by
    simp only [readTreeEntries] at hr ⊢
    cases hv : readTree g0 h v with
    | none => simp [hv] at hr
    | some y =>
      cases he : readTreeEntries g0 h rest with
      | none => simp [hv, he] at hr
      | some z =>
        simp only [hv, he, Option.some.injEq] at hr
        obtain ⟨hd, hA⟩ := Prod.mk.injEq .. ▸ hr
        have hay : ∀ a ∈ y.2, heapLookup h' a = heapLookup h a := by
          intro b hb
          apply ha
          rw [← hA]
          exact List.mem_append_left _ hb
        have haz : ∀ a ∈ z.2, heapLookup h' a = heapLookup h a := by
          intro b hb
          apply ha
          rw [← hA]
          exact List.mem_append_right _ hb
        have h1 := readTree_frame g0 h h' v y.1 y.2 (by simpa using hv) hay
        have h2 := readTreeEntries_frame g0 h h' rest z.1 z.2 (by simpa using he) haz
        simp only [h1, h2]
        exact congrArg some (Prod.mk.injEq .. ▸ ⟨hd, hA⟩)

theorem readTreeItems_frame : ∀ (g : Nat) (h h' : Heap) (is : List PyVal)
    (ls : ValList) (A : List Nat),
    readTreeItems g h is = some (ls, A) → (∀ a ∈ A, heapLookup h' a = heapLookup h a) →
    readTreeItems g h' is = some (ls, A)
  | g, h, h', [], ls, A, hr, ha => by simpa [readTreeItems] using hr
  | 0, h, h', e :: rest, ls, A, hr, ha => by simp [readTreeItems] at hr
  | g0+1, h, h', v :: rest, ls, A, hr, ha => by
    simp only [readTreeItems] at hr ⊢
    cases hv : readTree g0 h v with
    | none => simp [hv] at hr
    | some y =>
      cases he : readTreeItems g0 h rest with
      | none => simp [hv, he] at hr
      | some z =>
        simp only [hv, he, Option.some.injEq] at hr
        obtain ⟨hd, hA⟩ := Prod.mk.injEq .. ▸ hr
        have hay : ∀ a ∈ y.2, heapLookup h' a = heapLookup h a := by
          intro b hb
          apply ha
          rw [← hA]
          exact List.mem_append_left _ hb
        have haz : ∀ a ∈ z.2, heapLookup h' a = heapLookup h a := by
          intro b hb
          apply ha
          rw [← hA]
          exact List.mem_append_right _ hb
        have h1 := readTree_frame g0 h h' v y.1 y.2 (by simpa using hv) hay
        have h2 := readTreeItems_frame g0 h h' rest z.1 z.2 (by simpa using he) haz
        simp only [h1, h2]
        exact congrArg some (Prod.mk.injEq .. ▸ ⟨hd, hA⟩)

end

mutual

theorem readTree_bound : ∀ (g : Nat) (h : Heap) (v : PyVal) (t : Val) (A : List Nat),
    heapWF h → readTree g h v = some (t, A) → ∀ a ∈ A, a < h.next
  | g, h, PyVal.scalar s, t, A, hwf, hr, a, haA => by
    cases s <;> (simp [readTree] at hr; rw [hr.2] at haA; cases haA)
  | 0, h, PyVal.ref b, t, A, hwf, hr, a, haA => by simp [readTree] at hr
  | g0+1, h, PyVal.ref b, t, A, hwf, hr, a, haA => by
    simp only [readTree] at hr
    cases hl : heapLookup h b with
    | none => simp [hl] at hr
    | some o =>
      cases o with
      | dict es =>
        simp only [hl] at hr
        cases he : readTreeEntries g0 h es with
        | none => simp [he] at hr
        | some y =>
          simp only [he, Option.some.injEq] at hr
          obtain ⟨ht, hA⟩ := Prod.mk.injEq .. ▸ hr
          rw [← hA] at haA
          rcases List.mem_cons.1 haA with hab | hab
          · subst hab
            exact heapLookup_lt_next h a _ hwf hl
          · exact readTreeEntries_bound g0 h es y.1 y.2 hwf (by simpa using he) a hab
      | list is =>
        simp only [hl] at hr
        cases he : readTreeItems g0 h is with
        | none => simp [he] at hr
        | some y =>
          simp only [he, Option.some.injEq] at hr
          obtain ⟨ht, hA⟩ := Prod.mk.injEq .. ▸ hr
          rw [← hA] at haA
          rcases List.mem_cons.1 haA with hab | hab
          · subst hab
            exact heapLookup_lt_next h a _ hwf hl
          · exact readTreeItems_bound g0 h is y.1 y.2 hwf (by simpa using he) a hab

theorem readTreeEntries_bound : ∀ (g : Nat) (h : Heap) (es : List (String × PyVal))
    (ds : ValDict) (A : List Nat),
    heapWF h → readTreeEntries g h es = some (ds, A) → ∀ a ∈ A, a < h.next
  | g, h, [], ds, A, hwf, hr, a, haA => by
    simp [readTreeEntries] at hr
    rw [hr.2] at haA
    cases haA
  | 0, h, e :: rest, ds, A, hwf, hr, a, haA => by simp [readTreeEntries] at hr
  | g0+1, h, (k, v) :: rest, ds, A, hwf, hr, a, haA => by
    simp only [readTreeEntries] at hr
    cases hv : readTree g0 h v with
    | none => simp [hv] at hr
    | some y =>
      cases he : readTreeEntries g0 h rest with
      | none => simp [hv, he] at hr
      | some z =>
        simp only [hv, he, Option.some.injEq] at hr
        obtain ⟨hd, hA⟩ := Prod.mk.injEq .. ▸ hr
        rw [← hA] at haA
        rcases List.mem_append.1 haA with hab | hab
        · exact readTree_bound g0 h v y.1 y.2 hwf (by simpa using hv) a hab
        · exact readTreeEntries_bound g0 h rest z.1 z.2 hwf (by simpa using he) a hab

theorem readTreeItems_bound : ∀ (g : Nat) (h : Heap) (is : List PyVal)
    (ls : ValList) (A : List Nat),
    heapWF h → readTreeItems g h is = some (ls, A) → ∀ a ∈ A, a < h.next
  | g, h, [], ls, A, hwf, hr, a, haA => by
    simp [readTreeItems] at hr
    rw [hr.2] at haA
    cases haA
  | 0, h, e :: rest, ls, A, hwf, hr, a, haA => by simp [readTreeItems] at hr
  | g0+1, h, v :: rest, ls, A, hwf, hr, a, haA => by
    simp only [readTreeItems] at hr
    cases hv : readTree g0 h v with
    | none => simp [hv] at hr
    | some y =>
      cases he : readTreeItems g0 h rest with
      | none => simp [hv, he] at hr
      | some z =>
        simp only [hv, he, Option.some.injEq] at hr
        obtain ⟨hd, hA⟩ := Prod.mk.injEq .. ▸ hr
        rw [← hA] at haA
        rcases List.mem_append.1 haA with hab | hab
        · exact readTree_bound g0 h v y.1 y.2 hwf (by simpa using hv) a hab
        · exact readTreeItems_bound g0 h rest z.1 z.2 hwf (by simpa using he) a hab

end

/- objAddrs and region-closure helpers. -/

theorem objAddrs_dict_subset_read : ∀ (es : List (String × PyVal)) (g : Nat) (h : Heap)
    (ds : ValDict) (A : List Nat),
    readTreeEntries g h es = some (ds, A) → ∀ b ∈ objAddrs (Obj.dict es), b ∈ A
  | [], g, h, ds, A, hr, b, hb => by simp [objAddrs] at hb
  | (k, v) :: rest, 0, h, ds, A, hr, b, hb => by simp [readTreeEntries] at hr
  | (k, v) :: rest, g0+1, h, ds, A, hr, b, hb => by
    simp only [readTreeEntries] at hr
    cases hv : readTree g0 h v with
    | none => simp [hv] at hr
    | some y =>
      cases he : readTreeEntries g0 h rest with
      | none => simp [hv, he] at hr
      | some z =>
        simp only [hv, he, Option.some.injEq] at hr
        obtain ⟨hd, hA⟩ := Prod.mk.injEq .. ▸ hr
        rw [← hA]
        simp only [objAddrs, List.filterMap_cons] at hb
        cases v with
        | ref a =>
          simp only at hb
          rcases List.mem_cons.1 hb with hbb | hbb
          · subst hbb
            refine List.mem_append_left _ ?_
            cases g0 with
            | zero => simp [readTree] at hv
            | succ g1 =>
              simp only [readTree] at hv
              cases hl : heapLookup h b with
              | none => simp [hl] at hv
              | some o =>
                cases o with
                | dict es2 =>
                  simp only [hl] at hv
                  cases he2 : readTreeEntries g1 h es2 with
                  | none => simp [he2] at hv
                  | some w =>
                    simp only [he2, Option.some.injEq] at hv
                    rw [← hv]
                    exact List.mem_cons_self _ _
                | list is2 =>
                  simp only [hl] at hv
                  cases he2 : readTreeItems g1 h is2 with
                  | none => simp [he2] at hv
                  | some w =>
                    simp only [he2, Option.some.injEq] at hv
                    rw [← hv]
                    exact List.mem_cons_self _ _
          · exact List.mem_append_right _
              (objAddrs_dict_subset_read rest g0 h z.1 z.2 (by simpa using he) b
                (by simpa [objAddrs] using hbb))
        | scalar s =>
          simp only at hb
          exact List.mem_append_right _
            (objAddrs_dict_subset_read rest g0 h z.1 z.2 (by simpa using he) b
              (by simpa [objAddrs] using hb))

theorem objAddrs_list_subset_read : ∀ (is : List PyVal) (g : Nat) (h : Heap)
    (ls : ValList) (A : List Nat),
    readTreeItems g h is = some (ls, A) → ∀ b ∈ objAddrs (Obj.list is), b ∈ A
  | [], g, h, ls, A, hr, b, hb => by simp [objAddrs] at hb
  | v :: rest, 0, h, ls, A, hr, b, hb => by simp [readTreeItems] at hr
  | v :: rest, g0+1, h, ls, A, hr, b, hb => by
    simp only [readTreeItems] at hr
    cases hv : readTree g0 h v with
    | none => simp [hv] at hr
    | some y =>
      cases he : readTreeItems g0 h rest with
      | none => simp [hv, he] at hr
      | some z =>
        simp only [hv, he, Option.some.injEq] at hr
        obtain ⟨hd, hA⟩ := Prod.mk.injEq .. ▸ hr
        rw [← hA]
        simp only [objAddrs, List.filterMap_cons] at hb
        cases v with
        | ref a =>
          simp only at hb
          rcases List.mem_cons.1 hb with hbb | hbb
          · subst hbb
            refine List.mem_append_left _ ?_
            cases g0 with
            | zero => simp [readTree] at hv
            | succ g1 =>
              simp only [readTree] at hv
              cases hl : heapLookup h b with
              | none => simp [hl] at hv
              | some o =>
                cases o with
                | dict es2 =>
                  simp only [hl] at hv
                  cases he2 : readTreeEntries g1 h es2 with
                  | none => simp [he2] at hv
                  | some w =>
                    simp only [he2, Option.some.injEq] at hv
                    rw [← hv]
                    exact List.mem_cons_self _ _
                | list is2 =>
                  simp only [hl] at hv
                  cases he2 : readTreeItems g1 h is2 with
                  | none => simp [he2] at hv
                  | some w =>
                    simp only [he2, Option.some.injEq] at hv
                    rw [← hv]
                    exact List.mem_cons_self _ _
          · exact List.mem_append_right _
              (objAddrs_list_subset_read rest g0 h z.1 z.2 (by simpa using he) b
                (by simpa [objAddrs] using hbb))
        | scalar s =>
          simp only at hb
          exact List.mem_append_right _
            (objAddrs_list_subset_read rest g0 h z.1 z.2 (by simpa using he) b
              (by simpa [objAddrs] using hb))

/- DeepMergeEvo algebra. -/

theorem DeepMergeEvo.refl (n0 : Nat) (h : Heap) (hwf : heapWF h)
    (hc : regionClosed h n0) : DeepMergeEvo n0 h h :=
  ⟨Nat.le_refl _, hwf, hc, fun _ _ => rfl, fun _ _ _ => Or.inl rfl⟩

theorem DeepMergeEvo.trans (n0 : Nat) (h h1 h2 : Heap)
    (e1 : DeepMergeEvo n0 h h1) (e2 : DeepMergeEvo n0 h1 h2) : DeepMergeEvo n0 h h2 := by
  obtain ⟨m1, w1, c1, lo1, hi1⟩ := e1
  obtain ⟨m2, w2, c2, lo2, hi2⟩ := e2
  refine ⟨Nat.le_trans m1 m2, w2, c2, ?_, ?_⟩
  · intro a ha
    rw [lo2 a ha, lo1 a ha]
  · intro a ha1 ha2
    rcases hi2 a ha1 (by omega) with he | he
    · rcases hi1 a ha1 ha2 with hf | hf
      · exact Or.inl (he.trans hf)
      · obtain ⟨es, hes⟩ := hf
        exact Or.inr ⟨es, he.trans hes⟩
    · exact Or.inr he

theorem DeepMergeEvo.heapSet_dict (n0 : Nat) (h : Heap) (a : Nat)
    (es : List (String × PyVal)) (hwf : heapWF h) (hc : regionClosed h n0)
    (ha : n0 ≤ a) (hch : ∀ b ∈ objAddrs (Obj.dict es), n0 ≤ b) :
    DeepMergeEvo n0 h (heapSet h a (Obj.dict es)) := by
  refine ⟨Nat.le_refl _, heapWF_heapSet h a _ hwf, ?_, ?_, ?_⟩
  · intro b o hb hl
    rcases heapLookup_heapSet_cases h a (Obj.dict es) b with hcase | hcase
    · rw [hcase] at hl
      exact hc b o hb hl
    · rw [hcase.2] at hl
      cases hl
      exact hch
  · intro b hb
    exact heapLookup_heapSet_other h a _ b (by omega)
  · intro b hb1 hb2
    rcases heapLookup_heapSet_cases h a (Obj.dict es) b with hcase | hcase
    · exact Or.inl hcase
    · exact Or.inr ⟨es, hcase.2⟩

theorem DeepMergeEvo.heapAlloc_obj (n0 : Nat) (h : Heap) (o : Obj) (hwf : heapWF h)
    (hc : regionClosed h n0) (hn : n0 ≤ h.next)
    (hch : ∀ b ∈ objAddrs o, n0 ≤ b) :
    DeepMergeEvo n0 h (heapAlloc h o).2 := by
  refine ⟨by simp [heapAlloc], heapWF_heapAlloc h o hwf, ?_, ?_, ?_⟩
  · intro b ob hb hl
    by_cases hbn : b = h.next
    · subst hbn
      rw [heapLookup_heapAlloc_self] at hl
      cases hl
      exact hch
    · have hblt : b < h.next ∨ h.next < b := by omega
      rcases hblt with hblt | hblt
      · rw [heapLookup_heapAlloc_lt h o b hblt] at hl
        exact hc b ob hb hl
      · exfalso
        have := heapLookup_lt_next _ b ob (heapWF_heapAlloc h o hwf) hl
        simp [heapAlloc] at this
        omega
  · intro b hb
    exact heapLookup_heapAlloc_lt h o b (by omega)
  · intro b hb1 hb2
    exact Or.inl (heapLookup_heapAlloc_lt h o b hb2)

theorem heapAlloc_fst (h : Heap) (o : Obj) : (heapAlloc h o).1 = h.next := rfl

/- deepcopy specification: touches nothing already allocated, and its result
   reads back entirely inside the freshly allocated region. -/

mutual

theorem deepcopyH_spec : ∀ (fuel n0 : Nat) (h : Heap) (v v' : PyVal) (h' : Heap),
    heapWF h → regionClosed h n0 → n0 ≤ h.next →
    deepcopyH fuel h v = some (v', h') →
    DeepMergeEvo n0 h h'
    ∧ (∀ a, a < h.next → heapLookup h' a = heapLookup h a)
    ∧ freshReadable h.next h' v'
  | fuel, n0, h, PyVal.scalar s, v', h', hwf, hc, hn, hr => by
    have hvv : v' = PyVal.scalar s ∧ h' = h := by
      cases fuel <;> (simp [deepcopyH] at hr; exact ⟨hr.1.symm, hr.2.symm⟩)
    obtain ⟨rfl, rfl⟩ := hvv
    refine ⟨DeepMergeEvo.refl n0 _ hwf hc, fun a _ => rfl, ?_⟩
    cases s with
    | str t => exact ⟨0, Val.str t, [], rfl, by simp, by simp⟩
    | int i => exact ⟨0, Val.int i, [], rfl, by simp, by simp⟩
    | bool b => exact ⟨0, Val.bool b, [], rfl, by simp, by simp⟩
    | null => exact ⟨0, Val.null, [], rfl, by simp, by simp⟩
  | 0, n0, h, PyVal.ref a, v', h', hwf, hc, hn, hr => by simp [deepcopyH] at hr
  | fuel+1, n0, h, PyVal.ref a, v', h', hwf, hc, hn, hr => by
    simp only [deepcopyH] at hr
    cases hl : heapLookup h a with
    | none => simp [hl] at hr
    | some o =>
      cases o with
      | dict es =>
        simp only [hl] at hr
        cases hde : deepcopyEntriesH fuel h es with
        | none => simp [hde] at hr
        | some y =>
          simp only [hde, Option.some.injEq] at hr
          obtain ⟨hv', hh'⟩ := Prod.mk.injEq .. ▸ hr
          obtain ⟨evo1, pres1, g1, ds1, A1, hread1, hnd1, hbnd1⟩ :=
            deepcopyEntriesH_spec fuel n0 h es y.1 y.2 hwf hc hn hde
          have hwty : heapWF y.2 := evo1.2.1
          have hcy : regionClosed y.2 n0 := evo1.2.2.1
          have hny : n0 ≤ y.2.next := by have := evo1.1; omega
          have hchild : ∀ b ∈ objAddrs (Obj.dict y.1), n0 ≤ b := by
            intro b hb
            have hbA := objAddrs_dict_subset_read y.1 g1 y.2 ds1 A1 hread1 b hb
            have := (hbnd1 b hbA).1
            omega
          have evo2 := DeepMergeEvo.heapAlloc_obj n0 y.2 (Obj.dict y.1) hwty hcy hny hchild
          subst hh'
          subst hv'
          refine ⟨DeepMergeEvo.trans n0 h y.2 _ evo1 evo2, ?_, ?_⟩
          · intro b hb
            rw [heapLookup_heapAlloc_lt y.2 _ b (by have := evo1.1; omega)]
            exact pres1 b hb
          · have hframe : readTreeEntries g1 (heapAlloc y.2 (Obj.dict y.1)).2 y.1
                = some (ds1, A1) := by
              refine readTreeEntries_frame g1 y.2 _ y.1 ds1 A1 hread1 ?_
              intro b hb
              exact heapLookup_heapAlloc_lt y.2 _ b (hbnd1 b hb).2
            refine ⟨g1 + 1, Val.dict ds1, y.2.next :: A1, ?_, ?_, ?_⟩
            · simp only [readTree, heapAlloc_fst, heapLookup_heapAlloc_self, hframe]
            · refine List.nodup_cons.2 ⟨?_, hnd1⟩
              intro hmem
              have := (hbnd1 _ hmem).2
              omega
            · intro b hb
              rcases List.mem_cons.1 hb with hbb | hbb
              · subst hbb
                constructor
                · have := evo1.1
                  omega
                · simp [heapAlloc]
              · have := hbnd1 b hbb
                constructor
                · omega
                · simp only [heapAlloc]
                  omega
      | list is =>
        simp only [hl] at hr
        cases hde : deepcopyItemsH fuel h is with
        | none => simp [hde] at hr
        | some y =>
          simp only [hde, Option.some.injEq] at hr
          obtain ⟨hv', hh'⟩ := Prod.mk.injEq .. ▸ hr
          obtain ⟨evo1, pres1, g1, ls1, A1, hread1, hnd1, hbnd1⟩ :=
            deepcopyItemsH_spec fuel n0 h is y.1 y.2 hwf hc hn hde
          have hwty : heapWF y.2 := evo1.2.1
          have hcy : regionClosed y.2 n0 := evo1.2.2.1
          have hny : n0 ≤ y.2.next := by have := evo1.1; omega
          have hchild : ∀ b ∈ objAddrs (Obj.list y.1), n0 ≤ b := by
            intro b hb
            have hbA := objAddrs_list_subset_read y.1 g1 y.2 ls1 A1 hread1 b hb
            have := (hbnd1 b hbA).1
            omega
          have evo2 := DeepMergeEvo.heapAlloc_obj n0 y.2 (Obj.list y.1) hwty hcy hny hchild
          subst hh'
          subst hv'
          refine ⟨DeepMergeEvo.trans n0 h y.2 _ evo1 evo2, ?_, ?_⟩
          · intro b hb
            rw [heapLookup_heapAlloc_lt y.2 _ b (by have := evo1.1; omega)]
            exact pres1 b hb
          · have hframe : readTreeItems g1 (heapAlloc y.2 (Obj.list y.1)).2 y.1
                = some (ls1, A1) := by
              refine readTreeItems_frame g1 y.2 _ y.1 ls1 A1 hread1 ?_
              intro b hb
              exact heapLookup_heapAlloc_lt y.2 _ b (hbnd1 b hb).2
            refine ⟨g1 + 1, Val.list ls1, y.2.next :: A1, ?_, ?_, ?_⟩
            · simp only [readTree, heapAlloc_fst, heapLookup_heapAlloc_self, hframe]
            · refine List.nodup_cons.2 ⟨?_, hnd1⟩
              intro hmem
              have := (hbnd1 _ hmem).2
              omega
            · intro b hb
              rcases List.mem_cons.1 hb with hbb | hbb
              · subst hbb
                constructor
                · have := evo1.1
                  omega
                · simp [heapAlloc]
              · have := hbnd1 b hbb
                constructor
                · omega
                · simp only [heapAlloc]
                  omega

theorem deepcopyEntriesH_spec : ∀ (fuel n0 : Nat) (h : Heap)
    (es es' : List (String × PyVal)) (h' : Heap),
    heapWF h → regionClosed h n0 → n0 ≤ h.next →
    deepcopyEntriesH fuel h es = some (es', h') →
    DeepMergeEvo n0 h h'
    ∧ (∀ a, a < h.next → heapLookup h' a = heapLookup h a)
    ∧ freshReadableEntries h.next h' es'
  | fuel, n0, h, [], es', h', hwf, hc, hn, hr => by
    have hvv : es' = [] ∧ h' = h := by
      cases fuel <;> (simp [deepcopyEntriesH] at hr; exact ⟨hr.1, hr.2.symm⟩)
    obtain ⟨rfl, rfl⟩ := hvv
    exact ⟨DeepMergeEvo.refl n0 _ hwf hc, fun a _ => rfl,
      0, .nil, [], rfl, by simp, by simp⟩
  | 0, n0, h, e :: rest, es', h', hwf, hc, hn, hr => by simp [deepcopyEntriesH] at hr
  | fuel+1, n0, h, (k, v) :: rest, es', h', hwf, hc, hn, hr => by
    simp only [deepcopyEntriesH] at hr
    cases hdv : deepcopyH fuel h v with
    | none => simp [hdv] at hr
    | some y =>
      cases hde : deepcopyEntriesH fuel y.2 rest with
      | none => simp [hdv, hde] at hr
      | some z =>
        simp only [hdv, hde, Option.some.injEq] at hr
        obtain ⟨hes', hh'⟩ := Prod.mk.injEq .. ▸ hr
        obtain ⟨evo1, pres1, g1, t1, A1, hread1, hnd1, hbnd1⟩ :=
          deepcopyH_spec fuel n0 h v y.1 y.2 hwf hc hn hdv
        obtain ⟨evo2, pres2, g2, ds2, A2, hread2, hnd2, hbnd2⟩ :=
          deepcopyEntriesH_spec fuel n0 y.2 rest z.1 z.2 evo1.2.1 evo1.2.2.1
            (by have := evo1.1; omega) hde
        subst hh'
        subst hes'
        refine ⟨DeepMergeEvo.trans n0 h y.2 _ evo1 evo2, ?_, ?_⟩
        · intro a ha
          rw [pres2 a (by have := evo1.1; omega), pres1 a ha]
        · have hfr1 : readTree g1 z.2 y.1 = some (t1, A1) := by
            refine readTree_frame g1 y.2 z.2 y.1 t1 A1 hread1 ?_
            intro b hb
            exact pres2 b (hbnd1 b hb).2
          refine ⟨max g1 g2 + 1, .cons k t1 ds2, A1 ++ A2, ?_, ?_, ?_⟩
          · simp only [readTreeEntries]
            rw [readTree_mono g1 (max g1 g2) z.2 y.1 (t1, A1) hfr1 (Nat.le_max_left _ _)]
            rw [readTreeEntries_mono g2 (max g1 g2) z.2 z.1 (ds2, A2) hread2
              (Nat.le_max_right _ _)]
          · refine nodup_append_of_bounds A1 A2 y.2.next hnd1 hnd2 ?_ ?_
            · intro b hb
              exact (hbnd1 b hb).2
            · intro b hb
              exact (hbnd2 b hb).1
          · intro b hb
            rcases List.mem_append.1 hb with hbb | hbb
            · have := hbnd1 b hbb
              have := evo2.1
              omega
            · have := hbnd2 b hbb
              have := evo1.1
              omega

theorem deepcopyItemsH_spec : ∀ (fuel n0 : Nat) (h : Heap)
    (is is' : List PyVal) (h' : Heap),
    heapWF h → regionClosed h n0 → n0 ≤ h.next →
    deepcopyItemsH fuel h is = some (is', h') →
    DeepMergeEvo n0 h h'
    ∧ (∀ a, a < h.next → heapLookup h' a = heapLookup h a)
    ∧ freshReadableItems h.next h' is'
  | fuel, n0, h, [], is', h', hwf, hc, hn, hr => by
    have hvv : is' = [] ∧ h' = h := by
      cases fuel <;> (simp [deepcopyItemsH] at hr; exact ⟨hr.1, hr.2.symm⟩)
    obtain ⟨rfl, rfl⟩ := hvv
    exact ⟨DeepMergeEvo.refl n0 _ hwf hc, fun a _ => rfl,
      0, .nil, [], rfl, by simp, by simp⟩
  | 0, n0, h, e :: rest, is', h', hwf, hc, hn, hr => by simp [deepcopyItemsH] at hr
  | fuel+1, n0, h, v :: rest, is', h', hwf, hc, hn, hr => by
    simp only [deepcopyItemsH] at hr
    cases hdv : deepcopyH fuel h v with
    | none => simp [hdv] at hr
    | some y =>
      cases hde : deepcopyItemsH fuel y.2 rest with
      | none => simp [hdv, hde] at hr
      | some z =>
        simp only [hdv, hde, Option.some.injEq] at hr
        obtain ⟨his', hh'⟩ := Prod.mk.injEq .. ▸ hr
        obtain ⟨evo1, pres1, g1, t1, A1, hread1, hnd1, hbnd1⟩ :=
          deepcopyH_spec fuel n0 h v y.1 y.2 hwf hc hn hdv
        obtain ⟨evo2, pres2, g2, ls2, A2, hread2, hnd2, hbnd2⟩ :=
          deepcopyItemsH_spec fuel n0 y.2 rest z.1 z.2 evo1.2.1 evo1.2.2.1
            (by have := evo1.1; omega) hde
        subst hh'
        subst his'
        refine ⟨DeepMergeEvo.trans n0 h y.2 _ evo1 evo2, ?_, ?_⟩
        · intro a ha
          rw [pres2 a (by have := evo1.1; omega), pres1 a ha]
        · have hfr1 : readTree g1 z.2 y.1 = some (t1, A1) := by
            refine readTree_frame g1 y.2 z.2 y.1 t1 A1 hread1 ?_
            intro b hb
            exact pres2 b (hbnd1 b hb).2
          refine ⟨max g1 g2 + 1, .cons t1 ls2, A1 ++ A2, ?_, ?_, ?_⟩
          · simp only [readTreeItems]
            rw [readTree_mono g1 (max g1 g2) z.2 y.1 (t1, A1) hfr1 (Nat.le_max_left _ _)]
            rw [readTreeItems_mono g2 (max g1 g2) z.2 z.1 (ls2, A2) hread2
              (Nat.le_max_right _ _)]
          · refine nodup_append_of_bounds A1 A2 y.2.next hnd1 hnd2 ?_ ?_
            · intro b hb
              exact (hbnd1 b hb).2
            · intro b hb
              exact (hbnd2 b hb).1
          · intro b hb
            rcases List.mem_append.1 hb with hbb | hbb
            · have := hbnd1 b hbb
              have := evo2.1
              omega
            · have := hbnd2 b hbb
              have := evo1.1
              omega

end

/- Helpers about direct child addresses. -/

theorem readTree_ref_head : ∀ (g : Nat) (h : Heap) (b : Nat) (t : Val) (A : List Nat),
    readTree g h (PyVal.ref b) = some (t, A) → b ∈ A
  | 0, h, b, t, A, hr => by simp [readTree] at hr
  | g0+1, h, b, t, A, hr => by
    simp only [readTree] at hr
    cases hl : heapLookup h b with
    | none => simp [hl] at hr
    | some o =>
      cases o with
      | dict es =>
        simp only [hl] at hr
        cases he : readTreeEntries g0 h es with
        | none => simp [he] at hr
        | some y =>
          simp only [he, Option.some.injEq] at hr
          obtain ⟨ht, hA⟩ := Prod.mk.injEq .. ▸ hr
          rw [← hA]
          exact List.mem_cons_self _ _
      | list is =>
        simp only [hl] at hr
        cases he : readTreeItems g0 h is with
        | none => simp [he] at hr
        | some y =>
          simp only [he, Option.some.injEq] at hr
          obtain ⟨ht, hA⟩ := Prod.mk.injEq .. ▸ hr
          rw [← hA]
          exact List.mem_cons_self _ _

theorem freshReadable_ref_bound (lo : Nat) (h : Heap) (b : Nat)
    (hf : freshReadable lo h (PyVal.ref b)) : lo ≤ b ∧ b < h.next := by
  obtain ⟨g, t, A, hread, _, hbnd⟩ := hf
  exact hbnd b (readTree_ref_head g h b t A hread)

theorem alookup_ref_mem_objAddrs : ∀ (es : List (String × PyVal)) (k : String) (b : Nat),
    alookup es k = some (PyVal.ref b) → b ∈ objAddrs (Obj.dict es)
  | [], k, b, h => by simp [alookup] at h
  | (k0, v0) :: rest, k, b, h => by
    by_cases hk : k0 = k
    · subst hk
      simp [alookup] at h
      subst h
      simp [objAddrs, List.filterMap_cons]
    · simp only [alookup, hk, if_false] at h
      have := alookup_ref_mem_objAddrs rest k b h
      simp only [objAddrs, List.filterMap_cons] at this ⊢
      cases v0 with
      | ref a => exact List.mem_cons_of_mem _ (by simpa [objAddrs] using this)
      | scalar s => simpa [objAddrs] using this

theorem objAddrs_dict_pyInsert : ∀ (tes : List (String × PyVal)) (k : String) (v : PyVal)
    (b : Nat), b ∈ objAddrs (Obj.dict (pyInsert tes k v)) →
    b ∈ objAddrs (Obj.dict tes) ∨ v = PyVal.ref b
  | [], k, v, b, h => by
    cases v with
    | ref a =>
      simp [pyInsert, objAddrs, List.filterMap_cons] at h
      subst h
      exact Or.inr rfl
    | scalar s => simp [pyInsert, objAddrs, List.filterMap_cons] at h
  | (k0, v0) :: rest, k, v, b, h => by
    by_cases hk : k0 = k
    · subst hk
      simp only [pyInsert, if_pos rfl] at h
      simp only [objAddrs, List.filterMap_cons] at h ⊢
      cases v with
      | ref a =>
        rcases List.mem_cons.1 h with hb | hb
        · subst hb
          exact Or.inr rfl
        · cases v0 with
          | ref a0 => exact Or.inl (List.mem_cons_of_mem _ hb)
          | scalar s0 => exact Or.inl hb
      | scalar s =>
        cases v0 with
        | ref a0 => exact Or.inl (List.mem_cons_of_mem _ h)
        | scalar s0 => exact Or.inl h
    · simp only [pyInsert, hk, if_false] at h
      simp only [objAddrs, List.filterMap_cons] at h ⊢
      cases v0 with
      | ref a0 =>
        simp only at h ⊢
        rcases List.mem_cons.1 h with hb | hb
        · subst hb
          exact Or.inl (List.mem_cons_self _ _)
        · rcases objAddrs_dict_pyInsert rest k v b (by simpa [objAddrs] using hb) with hc | hc
          · exact Or.inl (List.mem_cons_of_mem _ (by simpa [objAddrs] using hc))
          · exact Or.inr hc
      | scalar s0 =>
        simp only at h ⊢
        rcases objAddrs_dict_pyInsert rest k v b (by simpa [objAddrs] using h) with hc | hc
        · exact Or.inl (by simpa [objAddrs] using hc)
        · exact Or.inr hc

/- _deep_merge_dicts at heap level mutates only the region at or above n0
   (the freshly built base and its descendants) and keeps it closed. -/

theorem deepMergeAssignH_spec (fuel n0 : Nat) (h : Heap) (t : Nat) (k : String)
    (sv : PyVal) (h' : Heap) (hwf : heapWF h) (hc : regionClosed h n0)
    (hn : n0 ≤ h.next) (ht : n0 ≤ t)
    (hr : deepMergeAssignH fuel h t k sv = some h') : DeepMergeEvo n0 h h' := by
  unfold deepMergeAssignH at hr
  cases hdc : deepcopyH fuel h sv with
  | none => simp [hdc] at hr
  | some y =>
    simp only [hdc] at hr
    cases hl : heapLookup y.2 t with
    | none => simp [hl] at hr
    | some o =>
      cases o with
      | dict tes =>
        simp only [hl, Option.some.injEq] at hr
        obtain ⟨evo1, pres1, hfresh⟩ :=
          deepcopyH_spec fuel n0 h sv y.1 y.2 hwf hc hn hdc
        have hwf1 : heapWF y.2 := evo1.2.1
        have hc1 : regionClosed y.2 n0 := evo1.2.2.1
        have hch : ∀ b ∈ objAddrs (Obj.dict (pyInsert tes k y.1)), n0 ≤ b := by
          intro b hb
          rcases objAddrs_dict_pyInsert tes k y.1 b hb with hcase | hcase
          · exact hc1 t (Obj.dict tes) ht hl b hcase
          · rw [hcase] at hfresh
            have := freshReadable_ref_bound h.next y.2 b hfresh
            omega
        have evo2 := DeepMergeEvo.heapSet_dict n0 y.2 t (pyInsert tes k y.1) hwf1 hc1 ht hch
        rw [← hr]
        exact DeepMergeEvo.trans n0 h y.2 _ evo1 evo2
      | list tis => simp [hl] at hr

mutual

theorem deepMergeH_spec : ∀ (fuel n0 : Nat) (h : Heap) (t s : Nat) (h' : Heap),
    heapWF h → regionClosed h n0 → n0 ≤ h.next → n0 ≤ t →
    deepMergeH fuel h t s = some h' → DeepMergeEvo n0 h h'
  | 0, n0, h, t, s, h', hwf, hc, hn, ht, hr => by simp [deepMergeH] at hr
  | fuel+1, n0, h, t, s, h', hwf, hc, hn, ht, hr => by
    simp only [deepMergeH] at hr
    cases hl : heapLookup h s with
    | none => simp [hl] at hr
    | some o =>
      cases o with
      | dict ses =>
        simp only [hl] at hr
        exact deepMergeEntriesH_spec fuel n0 h t ses h' hwf hc hn ht hr
      | list sis => simp [hl] at hr

theorem deepMergeEntriesH_spec : ∀ (fuel n0 : Nat) (h : Heap) (t : Nat)
    (ses : List (String × PyVal)) (h' : Heap),
    heapWF h → regionClosed h n0 → n0 ≤ h.next → n0 ≤ t →
    deepMergeEntriesH fuel h t ses = some h' → DeepMergeEvo n0 h h'
  | fuel, n0, h, t, [], h', hwf, hc, hn, ht, hr => by
    have hh : h' = h := by
      cases fuel <;> (simp [deepMergeEntriesH] at hr; exact hr.symm)
    subst hh
    exact DeepMergeEvo.refl n0 _ hwf hc
  | 0, n0, h, t, e :: rest, h', hwf, hc, hn, ht, hr => by simp [deepMergeEntriesH] at hr
  | fuel+1, n0, h, t, (k, sv) :: rest, h', hwf, hc, hn, ht, hr => by
    simp only [deepMergeEntriesH] at hr
    cases hlt : heapLookup h t with
    | none => simp [hlt] at hr
    | some o =>
      cases o with
      | list tis => simp [hlt] at hr
      | dict tes =>
        simp only [hlt] at hr
        have hassign : ∀ (h1 : Heap), deepMergeAssignH fuel h t k sv = some h1 →
            deepMergeEntriesH fuel h1 t rest = some h' → DeepMergeEvo n0 h h' := by
          intro h1 ha1 ha2
          have evo1 := deepMergeAssignH_spec fuel n0 h t k sv h1 hwf hc hn ht ha1
          have evo2 := deepMergeEntriesH_spec fuel n0 h1 t rest h' evo1.2.1 evo1.2.2.1
            (by have := evo1.1; omega) ht ha2
          exact DeepMergeEvo.trans n0 h h1 h' evo1 evo2
        cases hak : alookup tes k with
        | none =>
          simp only [hak] at hr
          cases ha1 : deepMergeAssignH fuel h t k sv with
          | none => simp [ha1] at hr
          | some h1 =>
            simp only [ha1] at hr
            exact hassign h1 ha1 hr
        | some tv =>
          cases tv with
          | scalar s0 =>
            simp only [hak] at hr
            cases ha1 : deepMergeAssignH fuel h t k sv with
            | none => simp [ha1] at hr
            | some h1 =>
              simp only [ha1] at hr
              exact hassign h1 ha1 hr
          | ref ta =>
            cases sv with
            | scalar s1 =>
              simp only [hak] at hr
              cases ha1 : deepMergeAssignH fuel h t k (PyVal.scalar s1) with
              | none => simp [ha1] at hr
              | some h1 =>
                simp only [ha1] at hr
                exact hassign h1 ha1 hr
            | ref sa =>
              simp only [hak] at hr
              cases hlta : heapLookup h ta with
              | none =>
                simp only [hlta] at hr
                cases ha1 : deepMergeAssignH fuel h t k (PyVal.ref sa) with
                | none => simp [ha1] at hr
                | some h1 =>
                  simp only [ha1] at hr
                  exact hassign h1 ha1 hr
              | some ota =>
                cases hlsa : heapLookup h sa with
                | none =>
                  simp only [hlta, hlsa] at hr
                  cases ota <;> (
                    cases ha1 : deepMergeAssignH fuel h t k (PyVal.ref sa) with
                    | none => simp [ha1] at hr
                    | some h1 =>
                      simp only [ha1] at hr
                      exact hassign h1 ha1 hr)
                | some osa =>
                  simp only [hlta, hlsa] at hr
                  cases ota with
                  | list tl =>
                    simp only at hr
                    cases ha1 : deepMergeAssignH fuel h t k (PyVal.ref sa) with
                    | none => simp [ha1] at hr
                    | some h1 =>
                      simp only [ha1] at hr
                      exact hassign h1 ha1 hr
                  | dict td =>
                    cases osa with
                    | list sl =>
                      simp only at hr
                      cases ha1 : deepMergeAssignH fuel h t k (PyVal.ref sa) with
                      | none => simp [ha1] at hr
                      | some h1 =>
                        simp only [ha1] at hr
                        exact hassign h1 ha1 hr
                    | dict sd =>
                      simp only at hr
                      cases hm1 : deepMergeH fuel h ta sa with
                      | none => simp [hm1] at hr
                      | some h1 =>
                        simp only [hm1] at hr
                        have hta : n0 ≤ ta := by
                          have hmem := alookup_ref_mem_objAddrs tes k ta hak
                          exact hc t (Obj.dict tes) ht hlt ta hmem
                        have evo1 := deepMergeH_spec fuel n0 h ta sa h1 hwf hc hn hta hm1
                        have evo2 := deepMergeEntriesH_spec fuel n0 h1 t rest h'
                          evo1.2.1 evo1.2.2.1 (by have := evo1.1; omega) ht hr
                        exact DeepMergeEvo.trans n0 h h1 h' evo1 evo2

end

/- Support lemmas for the composer specification. -/

theorem memSet_lookup_self : ∀ (m : List (Nat × Obj)) (a : Nat) (o o' : Obj),
    memLookup m a = some o' → memLookup (memSet m a o) a = some o
  | [], a, o, o', h => by simp [memLookup] at h
  | (a0, o0) :: rest, a, o, o', h => by
    by_cases ha : a0 = a
    · subst ha
      simp [memSet, memLookup]
    · simp only [memLookup, ha, if_false] at h
      simp only [memSet, ha, if_false, memLookup]
      exact memSet_lookup_self rest a o o' h

theorem heapLookup_heapSet_self (h : Heap) (a : Nat) (o o' : Obj)
    (hl : heapLookup h a = some o') : heapLookup (heapSet h a o) a = some o :=
  memSet_lookup_self h.mem a o o' hl

theorem regionClosed_next (h : Heap) (hwf : heapWF h) : regionClosed h h.next := by
  intro a o ha hl
  have := heapLookup_lt_next h a o hwf hl
  omega

theorem freshReadable_weaken_floor (lo lo' : Nat) (h : Heap) (v : PyVal)
    (hle : lo' ≤ lo) (hf : freshReadable lo h v) : freshReadable lo' h v := by
  obtain ⟨g, t, A, hr, hnd, hbnd⟩ := hf
  refine ⟨g, t, A, hr, hnd, ?_⟩
  intro a ha
  have := hbnd a ha
  omega

theorem objAddrs_dict_eraseKey_subset : ∀ (es : List (String × PyVal)) (k : String) (b : Nat),
    b ∈ objAddrs (Obj.dict (eraseKey es k)) → b ∈ objAddrs (Obj.dict es)
  | [], k, b, h => by simpa [eraseKey] using h
  | (k0, v0) :: rest, k, b, h => by
    by_cases hk : k0 = k
    · simp only [eraseKey, hk, if_pos rfl] at h
      simp only [objAddrs, List.filterMap_cons]
      cases v0 with
      | ref a0 => exact List.mem_cons_of_mem _ (by simpa [objAddrs] using h)
      | scalar s0 => simpa [objAddrs] using h
    · simp only [eraseKey, hk, if_false] at h
      simp only [objAddrs, List.filterMap_cons] at h ⊢
      cases v0 with
      | ref a0 =>
        simp only at h ⊢
        rcases List.mem_cons.1 h with hb | hb
        · subst hb
          exact List.mem_cons_self _ _
        · exact List.mem_cons_of_mem _
            (by simpa [objAddrs] using
              objAddrs_dict_eraseKey_subset rest k b (by simpa [objAddrs] using hb))
      | scalar s0 =>
        exact objAddrs_dict_eraseKey_subset rest k b h

theorem readTreeEntries_nil_inv (g : Nat) (h : Heap) (ds : ValDict) (A : List Nat)
    (hr : readTreeEntries g h [] = some (ds, A)) : ds = .nil ∧ A = [] := by
  simp [readTreeEntries] at hr
  exact ⟨hr.1.symm, hr.2⟩

theorem readTreeEntries_cons_inv (g : Nat) (h : Heap) (k : String) (v : PyVal)
    (rest : List (String × PyVal)) (ds : ValDict) (A : List Nat)
    (hr : readTreeEntries g h ((k, v) :: rest) = some (ds, A)) :
    ∃ g0 t0 A0 ds1 A1, g = g0 + 1 ∧ readTree g0 h v = some (t0, A0)
      ∧ readTreeEntries g0 h rest = some (ds1, A1)
      ∧ ds = .cons k t0 ds1 ∧ A = A0 ++ A1 := by
  cases g with
  | zero => simp [readTreeEntries] at hr
  | succ g0 =>
    simp only [readTreeEntries] at hr
    cases hv : readTree g0 h v with
    | none => simp [hv] at hr
    | some y =>
      cases he : readTreeEntries g0 h rest with
      | none => simp [hv, he] at hr
      | some z =>
        simp only [hv, he, Option.some.injEq] at hr
        obtain ⟨hd, hA⟩ := Prod.mk.injEq .. ▸ hr
        exact ⟨g0, y.1, y.2, z.1, z.2, rfl, by simpa using hv, by simpa using he,
          hd.symm, hA.symm⟩

theorem nodup_append_of_disjoint (A B : List Nat) (hA : A.Nodup) (hB : B.Nodup)
    (hd : ∀ b ∈ B, b ∉ A) : (A ++ B).Nodup := by
  refine List.Nodup.append hA hB ?_
  intro a ha hb
  exact hd a hb ha

theorem readTreeEntries_pyInsert : ∀ (es : List (String × PyVal)) (g : Nat) (h : Heap)
    (ds : ValDict) (A : List Nat) (k : String) (v : PyVal) (g2 : Nat) (t : Val)
    (Av : List Nat),
    readTreeEntries g h es = some (ds, A) → readTree g2 h v = some (t, Av) →
    A.Nodup → Av.Nodup → (∀ b ∈ Av, b ∉ A) →
    ∃ G ds2 A2, readTreeEntries G h (pyInsert es k v) = some (ds2, A2)
      ∧ A2.Nodup ∧ ∀ b ∈ A2, b ∈ A ∨ b ∈ Av
  | [], g, h, ds, A, k, v, g2, t, Av, hr, hv, hA, hAv, hdisj => by
    refine ⟨g2 + 1, .cons k t .nil, Av ++ [], ?_, ?_, ?_⟩
    · simp [pyInsert, readTreeEntries, hv]
    · simpa using hAv
    · intro b hb
      right
      simpa using hb
  | (k0, v0) :: rest, g, h, ds, A, k, v, g2, t, Av, hr, hv, hA, hAv, hdisj => by
    obtain ⟨g0, t0, A0, ds1, A1, hg, hv0, hrest, hds, hAeq⟩ :=
      readTreeEntries_cons_inv g h k0 v0 rest ds A hr
    subst hAeq
    by_cases hk : k0 = k
    · subst hk
      refine ⟨max g2 g0 + 1, .cons k0 t ds1, Av ++ A1, ?_, ?_, ?_⟩
      · simp only [pyInsert, if_pos rfl, readTreeEntries]
        rw [readTree_mono g2 (max g2 g0) h v (t, Av) hv (Nat.le_max_left _ _)]
        rw [readTreeEntries_mono g0 (max g2 g0) h rest (ds1, A1) hrest (Nat.le_max_right _ _)]
      · refine nodup_append_of_disjoint Av A1 hAv (List.Nodup.of_append_right hA) ?_
        intro b hb hbAv
        exact hdisj b hbAv (List.mem_append_right _ hb)
      · intro b hb
        rcases List.mem_append.1 hb with hb | hb
        · exact Or.inr hb
        · exact Or.inl (List.mem_append_right _ hb)
    · obtain ⟨G', ds2', A2', hread', hnd', hsub'⟩ :=
        readTreeEntries_pyInsert rest g0 h ds1 A1 k v g2 t Av hrest hv
          (List.Nodup.of_append_right hA) hAv
          (fun b hb hbA1 => hdisj b hb (List.mem_append_right _ hbA1))
      refine ⟨max g0 G' + 1, .cons k0 t0 ds2', A0 ++ A2', ?_, ?_, ?_⟩
      · simp only [pyInsert, hk, if_false, readTreeEntries]
        rw [readTree_mono g0 (max g0 G') h v0 (t0, A0) hv0 (Nat.le_max_left _ _)]
        rw [readTreeEntries_mono G' (max g0 G') h (pyInsert rest k v) (ds2', A2') hread'
          (Nat.le_max_right _ _)]
      · refine nodup_append_of_disjoint A0 A2' (List.Nodup.of_append_left hA) hnd' ?_
        intro b hb hbA0
        rcases hsub' b hb with hc | hc
        · exact (List.disjoint_of_nodup_append hA) hbA0 hc
        · exact hdisj b hc (List.mem_append_left _ hbA0)
      · intro b hb
        rcases List.mem_append.1 hb with hb | hb
        · exact Or.inl (List.mem_append_left _ hb)
        · rcases hsub' b hb with hc | hc
          · exact Or.inl (List.mem_append_right _ hc)
          · exact Or.inr hc

theorem DeepMergeEvo.weaken (n0 : Nat) (h h' : Heap) (hc : regionClosed h n0)
    (hn : n0 ≤ h.next) (evo : DeepMergeEvo h.next h h') : DeepMergeEvo n0 h h' := by
  obtain ⟨m, w, c, lo, hi⟩ := evo
  refine ⟨m, w, ?_, fun a ha => lo a (by omega), fun a ha1 ha2 => Or.inl (lo a ha2)⟩
  intro a o hao hl
  by_cases hlt : a < h.next
  · rw [lo a hlt] at hl
    exact hc a o hao hl
  · intro b hb
    have := c a o (by omega) hl b hb
    omega

theorem mergeFoldItemsH_spec : ∀ (fuel n0 : Nat) (h : Heap) (base : Nat)
    (items : List PyVal) (h' : Heap),
    heapWF h → regionClosed h n0 → n0 ≤ h.next → n0 ≤ base →
    mergeFoldItemsH fuel h base items = some h' → DeepMergeEvo n0 h h'
  | fuel, n0, h, base, [], h', hwf, hc, hn, hb, hr => by
    have hh : h = h' := by
      cases fuel <;> (simp [mergeFoldItemsH] at hr; exact hr)
    rw [← hh]
    exact DeepMergeEvo.refl n0 h hwf hc
  | 0, n0, h, base, item :: rest, h', hwf, hc, hn, hb, hr => by
    simp [mergeFoldItemsH] at hr
  | fuel+1, n0, h, base, item :: rest, h', hwf, hc, hn, hb, hr => by
    simp only [mergeFoldItemsH] at hr
    cases item with
    | scalar s => simp at hr
    | ref ia =>
      cases hl : heapLookup h ia with
      | none => simp [hl] at hr
      | some o =>
        cases o with
        | list is0 => simp [hl] at hr
        | dict es0 =>
          simp only [hl] at hr
          cases hdm : deepMergeH fuel h base ia with
          | none => simp [hdm] at hr
          | some h1 =>
            simp only [hdm] at hr
            have evo1 := deepMergeH_spec fuel n0 h base ia h1 hwf hc hn hb hdm
            have evo2 := mergeFoldItemsH_spec fuel n0 h1 base rest h'
              evo1.2.1 evo1.2.2.1 (by have := evo1.1; omega) hb hr
            exact DeepMergeEvo.trans n0 h h1 h' evo1 evo2

/- merge_yaml_with_merge_keys at heap level: the composer never mutates any
   object allocated before the call, and its result reads back as a tree
   living entirely in the freshly allocated region. -/

mutual

theorem mergeYamlH_spec : ∀ (fuel : Nat) (h : Heap) (v v' : PyVal) (h' : Heap),
    heapWF h → mergeYamlH fuel h v = some (v', h') →
    DeepMergeEvo h.next h h' ∧ freshReadable h.next h' v'
  | 0, h, v, v', h', hwf, hr => by simp [mergeYamlH] at hr
  | fuel+1, h, PyVal.scalar s, v', h', hwf, hr => by
    have hvv : v' = PyVal.scalar s ∧ h' = h := by
      simp [mergeYamlH] at hr
      exact ⟨hr.1.symm, hr.2.symm⟩
    obtain ⟨rfl, rfl⟩ := hvv
    refine ⟨DeepMergeEvo.refl _ _ hwf (regionClosed_next _ hwf), ?_⟩
    cases s with
    | str t => exact ⟨0, Val.str t, [], rfl, by simp, by simp⟩
    | int i => exact ⟨0, Val.int i, [], rfl, by simp, by simp⟩
    | bool b => exact ⟨0, Val.bool b, [], rfl, by simp, by simp⟩
    | null => exact ⟨0, Val.null, [], rfl, by simp, by simp⟩
  | fuel+1, h, PyVal.ref a, v', h', hwf, hr => by
    simp only [mergeYamlH] at hr
    cases hl : heapLookup h a with
    | none => simp [hl] at hr
    | some o =>
      cases o with
      | dict es =>
        simp only [hl] at hr
        cases hdc : deepcopyH fuel h (PyVal.ref a) with
        | none => simp [hdc] at hr
        | some y =>
          obtain ⟨yv, yh⟩ := y
          cases yv with
          | scalar s => simp [hdc] at hr
          | ref a1 =>
            simp only [hdc] at hr
            obtain ⟨evo1, pres1, fresh1⟩ :=
              deepcopyH_spec fuel h.next h (PyVal.ref a) (PyVal.ref a1) yh hwf
                (regionClosed_next h hwf) (Nat.le_refl _) hdc
            have hwfy : heapWF yh := evo1.2.1
            have hcy : regionClosed yh h.next := evo1.2.2.1
            have hley : h.next ≤ yh.next := evo1.1
            cases hl1 : heapLookup yh a1 with
            | none => simp [hl1] at hr
            | some o1 =>
              cases o1 with
              | list is1 => simp [hl1] at hr
              | dict es1 =>
                simp only [hl1] at hr
                cases hmk : alookup es1 (String.mk ['<', '<', ':']) with
                | none =>
                  simp only [hmk] at hr
                  obtain ⟨evoL, freshL⟩ := mergeLoopH_spec fuel yh es1 v' h' hwfy hr
                  refine ⟨DeepMergeEvo.trans h.next h yh h' evo1
                    (DeepMergeEvo.weaken h.next yh h' hcy hley evoL), ?_⟩
                  exact freshReadable_weaken_floor yh.next h.next h' v' hley freshL
                | some ms =>
                  simp only [hmk] at hr
                  cases ms with
                  | scalar s => simp at hr
                  | ref ls =>
                    have ha1 := freshReadable_ref_bound h.next yh a1 fresh1
                    have hch2 : ∀ b ∈ objAddrs
                        (Obj.dict (eraseKey es1 (String.mk ['<', '<', ':']))), h.next ≤ b := by
                      intro b hb
                      exact hcy a1 (Obj.dict es1) ha1.1 hl1 b
                        (objAddrs_dict_eraseKey_subset es1 _ b hb)
                    have evoS := DeepMergeEvo.heapSet_dict h.next yh a1
                      (eraseKey es1 (String.mk ['<', '<', ':'])) hwfy hcy ha1.1 hch2
                    cases hl2 : heapLookup
                        (heapSet yh a1 (Obj.dict (eraseKey es1 (String.mk ['<', '<', ':'])))) ls with
                    | none => simp [hl2] at hr
                    | some o2 =>
                      cases o2 with
                      | dict d2 => simp [hl2] at hr
                      | list items =>
                        simp only [hl2] at hr
                        have hwf2 : heapWF
                            (heapSet yh a1 (Obj.dict (eraseKey es1 (String.mk ['<', '<', ':'])))) :=
                          evoS.2.1
                        have hc2 := evoS.2.2.1
                        have hn2 : (heapSet yh a1
                            (Obj.dict (eraseKey es1 (String.mk ['<', '<', ':'])))).next
                            = yh.next := heapSet_next _ _ _
                        have evoA := DeepMergeEvo.heapAlloc_obj h.next
                          (heapSet yh a1 (Obj.dict (eraseKey es1 (String.mk ['<', '<', ':']))))
                          (Obj.dict []) hwf2 hc2 (by omega)
                          (by intro b hb; simp [objAddrs] at hb)
                        cases hfold : mergeFoldItemsH fuel
                            (heapAlloc (heapSet yh a1
                              (Obj.dict (eraseKey es1 (String.mk ['<', '<', ':'])))) (Obj.dict [])).2
                            (heapAlloc (heapSet yh a1
                              (Obj.dict (eraseKey es1 (String.mk ['<', '<', ':'])))) (Obj.dict [])).1
                            items.reverse with
                        | none => simp [hfold] at hr
                        | some h3 =>
                          simp only [hfold] at hr
                          have hpfst : (heapAlloc (heapSet yh a1
                              (Obj.dict (eraseKey es1 (String.mk ['<', '<', ':']))))
                              (Obj.dict [])).1 = yh.next := by
                            rw [heapAlloc_fst, hn2]
                          have hpnext : (heapAlloc (heapSet yh a1
                              (Obj.dict (eraseKey es1 (String.mk ['<', '<', ':']))))
                              (Obj.dict [])).2.next = yh.next + 1 := by
                            rw [heapAlloc_next, hn2]
                          have evoF := mergeFoldItemsH_spec fuel h.next _ _ items.reverse h3
                            evoA.2.1 evoA.2.2.1 (by omega) (by omega) hfold
                          have hle3 : yh.next + 1 ≤ h3.next := by
                            have := evoF.1
                            omega
                          cases hdm : deepMergeH fuel h3
                              (heapAlloc (heapSet yh a1
                                (Obj.dict (eraseKey es1 (String.mk ['<', '<', ':']))))
                                (Obj.dict [])).1 a1 with
                          | none => simp [hdm] at hr
                          | some h4 =>
                            simp only [hdm] at hr
                            have evoM := deepMergeH_spec fuel h.next h3 _ a1 h4
                              evoF.2.1 evoF.2.2.1 (by omega) (by omega) hdm
                            cases hl4 : heapLookup h4
                                (heapAlloc (heapSet yh a1
                                  (Obj.dict (eraseKey es1 (String.mk ['<', '<', ':']))))
                                  (Obj.dict [])).1 with
                            | none => simp [hl4] at hr
                            | some o4 =>
                              cases o4 with
                              | list l4 => simp [hl4] at hr
                              | dict mes =>
                                simp only [hl4] at hr
                                obtain ⟨evoL, freshL⟩ :=
                                  mergeLoopH_spec fuel h4 mes v' h' evoM.2.1 hr
                                have hle4 : h.next ≤ h4.next := by
                                  have := evoM.1
                                  omega
                                have evo := DeepMergeEvo.trans h.next h yh h' evo1
                                  (DeepMergeEvo.trans h.next yh _ h' evoS
                                    (DeepMergeEvo.trans h.next _ _ h' evoA
                                      (DeepMergeEvo.trans h.next _ h3 h' evoF
                                        (DeepMergeEvo.trans h.next h3 h4 h' evoM
                                          (DeepMergeEvo.weaken h.next h4 h' evoM.2.2.1
                                            hle4 evoL)))))
                                exact ⟨evo, freshReadable_weaken_floor h4.next h.next h' v'
                                  hle4 freshL⟩
      | list items =>
        simp only [hl] at hr
        cases hitems : mergeItemsH fuel h items with
        | none => simp [hitems] at hr
        | some y =>
          obtain ⟨items2, h1⟩ := y
          simp only [hitems, Option.some.injEq] at hr
          obtain ⟨hv', hh'⟩ := Prod.mk.injEq .. ▸ hr
          obtain ⟨evoI, freshI⟩ := mergeItemsH_spec fuel h items items2 h1 hwf hitems
          obtain ⟨gI, lI, AI, hreadI, hndI, hbndI⟩ := freshI
          have hch : ∀ b ∈ objAddrs (Obj.list items2), h.next ≤ b := by
            intro b hb
            exact (hbndI b (objAddrs_list_subset_read items2 gI h1 lI AI hreadI b hb)).1
          have evoA := DeepMergeEvo.heapAlloc_obj h.next h1 (Obj.list items2)
            evoI.2.1 evoI.2.2.1 evoI.1 hch
          have hframe : ∀ b ∈ AI,
              heapLookup (heapAlloc h1 (Obj.list items2)).2 b = heapLookup h1 b := by
            intro b hb
            exact heapLookup_heapAlloc_lt h1 _ b (hbndI b hb).2
          have hreadI2 := readTreeItems_frame gI h1 (heapAlloc h1 (Obj.list items2)).2
            items2 lI AI hreadI hframe
          have hread : readTree (gI+1) (heapAlloc h1 (Obj.list items2)).2
              (PyVal.ref h1.next) = some (Val.list lI, h1.next :: AI) := by
            simp [readTree, heapLookup_heapAlloc_self, hreadI2]
          rw [← hh', ← hv']
          refine ⟨DeepMergeEvo.trans h.next h h1 _ evoI evoA, gI+1, Val.list lI,
            h1.next :: AI, by rw [heapAlloc_fst]; exact hread, ?_, ?_⟩
          · refine List.nodup_cons.mpr ⟨?_, hndI⟩
            intro hmem
            have := (hbndI h1.next hmem).2
            omega
          · intro b hb
            rw [heapAlloc_next]
            rcases List.mem_cons.1 hb with hb | hb
            · subst hb
              have := evoI.1
              omega
            · have := hbndI b hb
              have := evoI.1
              omega

theorem mergeLoopH_spec : ∀ (fuel : Nat) (h : Heap) (entries : List (String × PyVal))
    (v' : PyVal) (h' : Heap),
    heapWF h → mergeLoopH fuel h entries = some (v', h') →
    DeepMergeEvo h.next h h' ∧ freshReadable h.next h' v'
  | 0, h, entries, v', h', hwf, hr => by simp [mergeLoopH] at hr
  | fuel+1, h, entries, v', h', hwf, hr => by
    simp only [mergeLoopH] at hr
    cases hg : mergeLoopGoH fuel (heapAlloc h (Obj.dict [])).2
        (heapAlloc h (Obj.dict [])).1 entries with
    | none => simp [hg] at hr
    | some h1 =>
      simp only [hg, Option.some.injEq] at hr
      obtain ⟨hv', hh'⟩ := Prod.mk.injEq .. ▸ hr
      have evoA := DeepMergeEvo.heapAlloc_obj h.next h (Obj.dict []) hwf
        (regionClosed_next h hwf) (Nat.le_refl _) (by intro b hb; simp [objAddrs] at hb)
      have hinv : ∃ pes g ds A,
          heapLookup (heapAlloc h (Obj.dict [])).2 (heapAlloc h (Obj.dict [])).1
            = some (Obj.dict pes)
          ∧ readTreeEntries g (heapAlloc h (Obj.dict [])).2 pes = some (ds, A) ∧ A.Nodup
          ∧ ∀ a ∈ A, h.next ≤ a ∧ a < (heapAlloc h (Obj.dict [])).2.next
              ∧ a ≠ (heapAlloc h (Obj.dict [])).1 := by
        refine ⟨[], 0, .nil, [], ?_, rfl, by simp, by simp⟩
        rw [heapAlloc_fst]
        exact heapLookup_heapAlloc_self h (Obj.dict [])
      obtain ⟨evoG, pes2, g2, ds2, A2, hpd2, hread2, hnd2, hbnd2⟩ :=
        mergeLoopGoH_spec fuel (heapAlloc h (Obj.dict [])).2 (heapAlloc h (Obj.dict [])).1
          entries h1 h.next h.next evoA.2.1 evoA.2.2.1
          (by rw [heapAlloc_fst]) (by rw [heapAlloc_fst, heapAlloc_next]; omega)
          (by rw [heapAlloc_next]; omega) hinv hg
      have hread : readTree (g2+1) h1 (PyVal.ref (heapAlloc h (Obj.dict [])).1)
          = some (Val.dict ds2, (heapAlloc h (Obj.dict [])).1 :: A2) := by
        simp [readTree, hpd2, hread2]
      rw [← hh', ← hv']
      refine ⟨DeepMergeEvo.trans h.next h _ h1 evoA evoG, g2+1, Val.dict ds2,
        (heapAlloc h (Obj.dict [])).1 :: A2, hread, ?_, ?_⟩
      · refine List.nodup_cons.mpr ⟨?_, hnd2⟩
        intro hmem
        exact (hbnd2 _ hmem).2.2 rfl
      · intro b hb
        rcases List.mem_cons.1 hb with hb | hb
        · subst hb
          rw [heapAlloc_fst]
          have := evoG.1
          rw [heapAlloc_next] at this
          omega
        · have := hbnd2 b hb
          omega

theorem mergeLoopGoH_spec : ∀ (fuel : Nat) (h : Heap) (pd : Nat)
    (entries : List (String × PyVal)) (h' : Heap) (n0 m0 : Nat),
    heapWF h → regionClosed h n0 → n0 ≤ pd → pd < h.next → m0 ≤ h.next →
    (∃ pes g ds A, heapLookup h pd = some (Obj.dict pes)
       ∧ readTreeEntries g h pes = some (ds, A) ∧ A.Nodup
       ∧ ∀ a ∈ A, m0 ≤ a ∧ a < h.next ∧ a ≠ pd) →
    mergeLoopGoH fuel h pd entries = some h' →
    DeepMergeEvo n0 h h'
    ∧ ∃ pes2 g2 ds2 A2, heapLookup h' pd = some (Obj.dict pes2)
       ∧ readTreeEntries g2 h' pes2 = some (ds2, A2) ∧ A2.Nodup
       ∧ ∀ a ∈ A2, m0 ≤ a ∧ a < h'.next ∧ a ≠ pd
  | fuel, h, pd, [], h', n0, m0, hwf, hc, hnpd, hpdlt, hm0, hinv, hr => by
    have hh : h = h' := by
      cases fuel <;> (simp [mergeLoopGoH] at hr; exact hr)
    subst hh
    exact ⟨DeepMergeEvo.refl n0 h hwf hc, hinv⟩
  | 0, h, pd, e :: rest, h', n0, m0, hwf, hc, hnpd, hpdlt, hm0, hinv, hr => by
    simp [mergeLoopGoH] at hr
  | fuel+1, h, pd, (k, v) :: rest, h', n0, m0, hwf, hc, hnpd, hpdlt, hm0, hinv, hr => by
    simp only [mergeLoopGoH] at hr
    cases hY : mergeYamlH fuel h v with
    | none => simp [hY] at hr
    | some y =>
      obtain ⟨v1, h1⟩ := y
      simp only [hY] at hr
      cases hl1 : heapLookup h1 pd with
      | none => simp [hl1] at hr
      | some o1 =>
        cases o1 with
        | list l1 => simp [hl1] at hr
        | dict pes =>
          simp only [hl1] at hr
          obtain ⟨evoY, freshY⟩ := mergeYamlH_spec fuel h v v1 h1 hwf hY
          have hnle : n0 ≤ h.next := by omega
          have evoYn := DeepMergeEvo.weaken n0 h h1 hc hnle evoY
          obtain ⟨pes0, g0, ds0, A0, hpd0, hread0, hnd0, hbnd0⟩ := hinv
          have hpres := evoY.2.2.2.1 pd hpdlt
          have hpes : pes = pes0 := by
            rw [hpres, hpd0] at hl1
            simpa using hl1.symm
          subst hpes
          have hread0a := readTreeEntries_frame g0 h h1 pes ds0 A0 hread0
            (fun a ha => evoY.2.2.2.1 a (hbnd0 a ha).2.1)
          obtain ⟨gv, tv, Av, hreadv, hndv, hbndv⟩ := freshY
          obtain ⟨G, ds2, A2, hread2, hnd2, hsub2⟩ :=
            readTreeEntries_pyInsert pes g0 h1 ds0 A0 k v1 gv tv Av hread0a hreadv
              hnd0 hndv
              (by
                intro b hb hbA0
                have := (hbndv b hb).1
                have := (hbnd0 b hbA0).2.1
                omega)
          have hl1b : heapLookup h1 pd = some (Obj.dict pes) := by
            rw [hpres]
            exact hpd0
          have hpd2 : heapLookup (heapSet h1 pd (Obj.dict (pyInsert pes k v1))) pd
              = some (Obj.dict (pyInsert pes k v1)) :=
            heapLookup_heapSet_self h1 pd _ (Obj.dict pes) hl1b
          have hframe2 : ∀ b ∈ A2,
              heapLookup (heapSet h1 pd (Obj.dict (pyInsert pes k v1))) b
                = heapLookup h1 b := by
            intro b hb
            refine heapLookup_heapSet_other h1 pd _ b ?_
            rcases hsub2 b hb with hbc | hbc
            · exact (hbnd0 b hbc).2.2
            · have := (hbndv b hbc).1
              omega
          have hread2b := readTreeEntries_frame G h1
            (heapSet h1 pd (Obj.dict (pyInsert pes k v1))) (pyInsert pes k v1)
            ds2 A2 hread2 hframe2
          have hchS : ∀ b ∈ objAddrs (Obj.dict (pyInsert pes k v1)), n0 ≤ b := by
            intro b hb
            rcases objAddrs_dict_pyInsert pes k v1 b hb with hbc | hbc
            · exact evoYn.2.2.1 pd (Obj.dict pes) hnpd hl1b b hbc
            · rw [hbc] at hreadv
              have := (hbndv b (readTree_ref_head gv h1 b tv Av hreadv)).1
              omega
          have evoS := DeepMergeEvo.heapSet_dict n0 h1 pd (pyInsert pes k v1)
            evoYn.2.1 evoYn.2.2.1 hnpd hchS
          have hleY : h.next ≤ h1.next := evoY.1
          obtain ⟨evoR, hinvR⟩ := mergeLoopGoH_spec fuel
            (heapSet h1 pd (Obj.dict (pyInsert pes k v1))) pd rest h' n0 m0
            evoS.2.1 evoS.2.2.1 hnpd (by rw [heapSet_next]; omega)
            (by rw [heapSet_next]; omega)
            ⟨pyInsert pes k v1, G, ds2, A2, hpd2, hread2b, hnd2, by
              intro b hb
              rw [heapSet_next]
              rcases hsub2 b hb with hbc | hbc
              · have := hbnd0 b hbc
                exact ⟨this.1, by omega, this.2.2⟩
              · have := hbndv b hbc
                exact ⟨by omega, this.2, by omega⟩⟩ hr
          exact ⟨DeepMergeEvo.trans n0 h h1 h' evoYn
            (DeepMergeEvo.trans n0 h1 _ h' evoS evoR), hinvR⟩

theorem mergeItemsH_spec : ∀ (fuel : Nat) (h : Heap) (items items2 : List PyVal)
    (h' : Heap),
    heapWF h → mergeItemsH fuel h items = some (items2, h') →
    DeepMergeEvo h.next h h' ∧ freshReadableItems h.next h' items2
  | fuel, h, [], items2, h', hwf, hr => by
    have hvv : items2 = [] ∧ h' = h := by
      cases fuel <;> (simp [mergeItemsH] at hr; exact ⟨hr.1, hr.2.symm⟩)
    obtain ⟨rfl, rfl⟩ := hvv
    exact ⟨DeepMergeEvo.refl _ _ hwf (regionClosed_next _ hwf),
      0, .nil, [], rfl, by simp, by simp⟩
  | 0, h, item :: rest, items2, h', hwf, hr => by simp [mergeItemsH] at hr
  | fuel+1, h, item :: rest, items2, h', hwf, hr => by
    simp only [mergeItemsH] at hr
    cases hY : mergeYamlH fuel h item with
    | none => simp [hY] at hr
    | some y =>
      obtain ⟨item2, h1⟩ := y
      simp only [hY] at hr
      cases hR : mergeItemsH fuel h1 rest with
      | none => simp [hR] at hr
      | some z =>
        obtain ⟨rest2, h2⟩ := z
        simp only [hR, Option.some.injEq] at hr
        obtain ⟨hi, hh⟩ := Prod.mk.injEq .. ▸ hr
        obtain ⟨evoY, freshY⟩ := mergeYamlH_spec fuel h item item2 h1 hwf hY
        obtain ⟨evoR, freshR⟩ := mergeItemsH_spec fuel h1 rest rest2 h2 evoY.2.1 hR
        obtain ⟨gv, tv, Av, hreadv, hndv, hbndv⟩ := freshY
        obtain ⟨gr, lr, Ar, hreadr, hndr, hbndr⟩ := freshR
        have hreadv2 := readTree_frame gv h1 h2 item2 tv Av hreadv
          (fun a ha => evoR.2.2.2.1 a (hbndv a ha).2)
        have hcomb : readTreeItems (max gv gr + 1) h2 (item2 :: rest2)
            = some (.cons tv lr, Av ++ Ar) := by
          simp only [readTreeItems]
          rw [readTree_mono gv (max gv gr) h2 item2 (tv, Av) hreadv2
            (Nat.le_max_left _ _)]
          rw [readTreeItems_mono gr (max gv gr) h2 rest2 (lr, Ar) hreadr
            (Nat.le_max_right _ _)]
        rw [← hh, ← hi]
        have hleY : h.next ≤ h1.next := evoY.1
        refine ⟨DeepMergeEvo.trans h.next h h1 h2 evoY
          (DeepMergeEvo.weaken h.next h1 h2 evoY.2.2.1 hleY evoR),
          max gv gr + 1, .cons tv lr, Av ++ Ar, hcomb, ?_, ?_⟩
        · exact nodup_append_of_bounds Av Ar h1.next hndv hndr
            (fun a ha => (hbndv a ha).2) (fun b hb => (hbndr b hb).1)
        · intro b hb
          have hleR : h1.next ≤ h2.next := evoR.1
          rcases List.mem_append.1 hb with hb | hb
          · have := hbndv b hb
            exact ⟨this.1, by omega⟩
          · have := hbndr b hb
            exact ⟨by omega, this.2⟩

end

/-- C10: merge-key composition acts as a pure transformation.  Whenever
    merge_yaml_with_merge_keys succeeds on a value in a well-formed heap,
    every tree readable from the input value before the call is readable
    unchanged after it (in particular the input tree itself is structurally
    unchanged), no previously allocated heap cell is modified, and the
    returned value reads back as a tree whose container objects all live in
    the freshly allocated region — the result shares no mutable container
    with the input. -/
theorem c10_merge_key_pure_transformation (fuel : Nat) (h : Heap) (v v' : PyVal)
    (h' : Heap) (hwf : heapWF h) (hr : mergeYamlH fuel h v = some (v', h')) :
    (∀ g t A, readTree g h v = some (t, A) → readTree g h' v = some (t, A))
    ∧ (∀ a, a < h.next → heapLookup h' a = heapLookup h a)
    ∧ freshReadable h.next h' v' := by
  obtain ⟨evo, fresh⟩ := mergeYamlH_spec fuel h v v' h' hwf hr
  refine ⟨?_, evo.2.2.2.1, fresh⟩
  intro g t A hread
  exact readTree_frame g h h' v t A hread
    (fun a ha => evo.2.2.2.1 a (readTree_bound g h v t A hwf hread a ha))

/-- Witness for C10 at the concrete heap c10Heap0: the composer returns the
    fresh reference 2 and heap c10Heap1, in which the input tree at address 0
    reads back unchanged and the result is freshly allocated. -/
theorem c10_merge_key_pure_transformation_witness :
    heapWF c10Heap0
    ∧ mergeYamlH 5 c10Heap0 (PyVal.ref 0) = some (PyVal.ref 2, c10Heap1)
    ∧ readTree 2 c10Heap1 (PyVal.ref 0)
        = some (Val.dict (ValDict.cons "a" (Val.int 1) ValDict.nil), [0])
    ∧ freshReadable c10Heap0.next c10Heap1 (PyVal.ref 2) :=
  ⟨by decide, rfl,
    (c10_merge_key_pure_transformation 5 c10Heap0 (PyVal.ref 0) (PyVal.ref 2) c10Heap1
      (by decide) rfl).1 2
      (Val.dict (ValDict.cons "a" (Val.int 1) ValDict.nil)) [0] rfl,
    (c10_merge_key_pure_transformation 5 c10Heap0 (PyVal.ref 0) (PyVal.ref 2) c10Heap1
      (by decide) rfl).2.2⟩
